import Mathlib

/-!
Verification of the eprofiler-tui core against its specification.

The Rust sources are shallowly embedded: machine integers become `Nat`
(with explicit saturation or reduction modulo a power of two where the
source relies on it), the fjall LSM partitions become sorted association
lists keyed by the big-endian fixed-width keys (byte-lexicographic order
of the encoded keys coincides with the lexicographic order on the field
tuples, which is what the embedding uses), and fallible or concurrent
plumbing is dropped in favour of the pure state transformations the
claims are about.
-/

namespace EProfiler

/-- Largest value of a 64-bit unsigned integer; `u64::saturating_add`
clamps to this bound. -/
def u64Max : Nat := 2 ^ 64 - 1

/-- Sentinel used by `storage.rs` for absent string references
(`NONE_REF: u32 = u32::MAX`). -/
def NONE_REF : Nat := 2 ^ 32 - 1

/-- Reinterpretation of a Rust signed integer as `usize` (`as usize`):
sign-extension followed by two's-complement reinterpretation, i.e.
reduction modulo `2 ^ 64`. -/
def asUsize (i : Int) : Nat := (i % (2 ^ 64 : Nat)).toNat

/-- Embedding of `str::is_empty`, phrased over the character list so the
kernel can evaluate it on literals. -/
def strIsEmpty (s : String) : Bool := s.data.isEmpty

/-- Embedding of `str::to_lowercase`, character-wise (accurate on the
ASCII range the sources care about). -/
def strToLower (s : String) : String := ⟨s.data.map Char.toLower⟩

/-- Embedding of `str::starts_with`. -/
def strStartsWith (s pre : String) : Bool := pre.data.isPrefixOf s.data

/-- Embedding of `str::ends_with`. -/
def strEndsWith (s suffix2 : String) : Bool := suffix2.data.isSuffixOf s.data

/-- Embedding of `String::pop` (drop the final character). -/
def strPop (s : String) : String := ⟨s.data.dropLast⟩

/-- Embedding of `String::push`. -/
def strPush (s : String) (c : Char) : String := ⟨s.data ++ [c]⟩

/-- Split of a string at every slash, as `str::split('/')` yields it. -/
def splitSlash : List Char → List (List Char)
  | [] => [[]]
  | c :: rest =>
    match splitSlash rest with
    | [] => [[]]
    | g :: gs => if c = '/' then [] :: g :: gs else (c :: g) :: gs

/-- Key of the `ranges` partition (`RangeKey` in `storage.rs`):
`file_id:u128 bytes, va_start:u64 bytes, depth:u16 bytes`, big-endian, so
byte-lexicographic order is the lexicographic order of the field tuple. -/
structure RangeKey where
  file_id : Nat
  va_start : Nat
  depth : Nat
deriving DecidableEq, Repr

/-- Value stored alongside each `RangeKey` (`RangeValue` in `storage.rs`). -/
structure RangeValue where
  length : Nat
  func_ref : Nat
  file_ref : Nat
  call_file_ref : Nat
  call_line : Nat
deriving DecidableEq, Repr

/-- Key of the `strings` partition (`StringKey` in `storage.rs`). -/
structure StringKey where
  file_id : Nat
  idx : Nat
deriving DecidableEq, Repr

/-- Strict lexicographic order on range keys, matching byte-lexicographic
order of their big-endian encodings. -/
def RangeKey.lt (a b : RangeKey) : Bool :=
  a.file_id < b.file_id ||
    (a.file_id == b.file_id &&
      (a.va_start < b.va_start ||
        (a.va_start == b.va_start && a.depth < b.depth)))

/-- Reflexive lexicographic order on range keys. -/
def RangeKey.le (a b : RangeKey) : Bool :=
  RangeKey.lt a b || a == b

/-- Strict lexicographic order on string keys. -/
def StringKey.lt (a b : StringKey) : Bool :=
  a.file_id < b.file_id || (a.file_id == b.file_id && a.idx < b.idx)

/-- Output range of the symbol extractor (`SymRange` in `symbolizer.rs`);
the `StringRef` new-type is embedded as the bare `u32` index. -/
structure SymRange where
  va_start : Nat
  length : Nat
  func : Nat
  file : Option Nat
  call_file : Option Nat
  call_line : Option Nat
  depth : Nat
deriving DecidableEq, Repr

/-- Extractor result for one executable (`FileSym` in `symbolizer.rs`);
the `IndexSet` of interned strings is embedded as its insertion-ordered
list. -/
structure FileSym where
  file_id : Nat
  ranges : List SymRange
  strings : List String

/-- Conversion `RangeValue::from_range`: optional references become the
`NONE_REF` sentinel, an absent call line becomes `0`. -/
def RangeValue.from_range (r : SymRange) : RangeValue :=
  { length := r.length
    func_ref := r.func
    file_ref := r.file.getD NONE_REF
    call_file_ref := r.call_file.getD NONE_REF
    call_line := r.call_line.getD 0 }

/-- Resolved symbol information for one inline depth level
(`ResolvedFrame` in `storage.rs`). -/
structure ResolvedFrame where
  func : String
  depth : Nat
deriving DecidableEq, Repr

/-- Metadata for one stored executable (`ExecutableInfo` in `storage.rs`). -/
structure ExecutableInfo where
  file_id : Nat
  file_name : String
  num_ranges : Nat
deriving DecidableEq, Repr

/-- The persistent symbol store (`SymbolStore` in `storage.rs`). Each LSM
partition is embedded as an association list sorted strictly by key (the
LSM engine keeps one value per key in byte-lexicographic key order); the
in-memory basename index is an association list standing for the
`HashMap`. The `files` value `num_ranges(4B) + name bytes` is embedded as
the pair of its two fields. -/
structure SymbolStore where
  ranges : List (RangeKey × RangeValue)
  strings : List (StringKey × String)
  files : List (Nat × (Nat × String))
  basename_index : List (String × Nat)

/-- Store state after `open` on a fresh directory: all partitions empty,
basename index rebuilt from the empty `files` partition. -/
def SymbolStore.openEmpty : SymbolStore :=
  { ranges := [], strings := [], files := [], basename_index := [] }

/-- Upsert of one range entry into the sorted `ranges` partition: the LSM
batch write keeps keys sorted and replaces the value of an equal key. -/
def insertRange : List (RangeKey × RangeValue) → RangeKey → RangeValue →
    List (RangeKey × RangeValue)
  | [], k, v => [(k, v)]
  | (k0, v0) :: rest, k, v =>
    if RangeKey.lt k k0 then (k, v) :: (k0, v0) :: rest
    else if k = k0 then (k, v) :: rest
    else (k0, v0) :: insertRange rest k v

/-- Upsert of one string entry into the sorted `strings` partition. -/
def insertString : List (StringKey × String) → StringKey → String →
    List (StringKey × String)
  | [], k, v => [(k, v)]
  | (k0, v0) :: rest, k, v =>
    if StringKey.lt k k0 then (k, v) :: (k0, v0) :: rest
    else if k = k0 then (k, v) :: rest
    else (k0, v0) :: insertString rest k v

/-- Upsert of one file-metadata row into the sorted `files` partition. -/
def insertFile : List (Nat × (Nat × String)) → Nat → Nat × String →
    List (Nat × (Nat × String))
  | [], k, v => [(k, v)]
  | (k0, v0) :: rest, k, v =>
    if k < k0 then (k, v) :: (k0, v0) :: rest
    else if k = k0 then (k, v) :: rest
    else (k0, v0) :: insertFile rest k v

/-- In-place update of the `basename → FileId` `HashMap` (`insert`):
replace the value of an existing key, otherwise add the binding. -/
def upsertAssoc : List (String × Nat) → String → Nat → List (String × Nat)
  | [], k, v => [(k, v)]
  | (k0, v0) :: rest, k, v =>
    if k0 = k then (k, v) :: rest else (k0, v0) :: upsertAssoc rest k v

/-- Final path component (`basename_of` in `storage.rs`,
`path.rsplit('/').next()`). -/
def basename_of (path : String) : String :=
  (((splitSlash path.data).getLast?).map (fun c => String.mk c)).getD path

/-- Final component of a filesystem path as used by
`Path::file_name().map(to_string_lossy)` on the paths handed to
`store_file_symbols`; embedded as the final slash-separated segment. -/
def pathFileName (path : String) : String :=
  (((splitSlash path.data).getLast?).map (fun c => String.mk c)).getD ""

/-- Operation `SymbolStore::store_file_symbols`: one atomic batch writes
every interned string under `(file_id, idx)`, every range under
`(file_id, va_start, depth)`, and the `files` row; after the commit the
basename index learns `basename(file_name) → file_id`. -/
def SymbolStore.store_file_symbols (st : SymbolStore) (fs : FileSym)
    (path : String) : SymbolStore :=
  let strings1 := (fs.strings.enum).foldl
    (fun acc p => insertString acc ⟨fs.file_id, p.1⟩ p.2) st.strings
  let ranges1 := fs.ranges.foldl
    (fun acc r =>
      insertRange acc ⟨fs.file_id, r.va_start, r.depth⟩ (RangeValue.from_range r))
    st.ranges
  let file_name := pathFileName path
  let files1 := insertFile st.files fs.file_id (fs.ranges.length, file_name)
  { ranges := ranges1
    strings := strings1
    files := files1
    basename_index := upsertAssoc st.basename_index (basename_of file_name) fs.file_id }

/-- Lookup in the `strings` partition (`SymbolStore::resolve_string`):
a missing key resolves to the literal `"[unknown]"`. -/
def SymbolStore.resolve_string (st : SymbolStore) (fid idx : Nat) : String :=
  match st.strings.find? (fun e => e.1 == StringKey.mk fid idx) with
  | some e => e.2
  | none => "[unknown]"

/-- Inclusive key-interval scan over the `ranges` partition
(`self.ranges.range(lower..=upper)`), in ascending key order. -/
def rangeScan (l : List (RangeKey × RangeValue)) (lo hi : RangeKey) :
    List (RangeKey × RangeValue) :=
  l.filter (fun e => RangeKey.le lo e.1 && RangeKey.le e.1 hi)

/-- Body of the reverse iteration inside `SymbolStore::lookup`: for each
entry, a frame is pushed when `addr` lies in
`[va_start, va_start.saturating_add(length))`, and the walk stops as soon
as a `depth == 0` entry has been visited. The input list is already in
the reversed (descending-key) order. -/
def lookupLoop (st : SymbolStore) (fid addr : Nat) :
    List (RangeKey × RangeValue) → List ResolvedFrame
  | [] => []
  | (k, v) :: rest =>
    let start := k.va_start
    let stop := min (start + v.length) u64Max
    let here : List ResolvedFrame :=
      if start ≤ addr ∧ addr < stop then
        [{ func := st.resolve_string fid v.func_ref, depth := k.depth }]
      else []
    if k.depth = 0 then here else here ++ lookupLoop st fid addr rest

/-- Final `frames.sort_unstable_by_key(|f| f.depth)` of `lookup`. -/
def sortFramesByDepth (l : List ResolvedFrame) : List ResolvedFrame :=
  l.mergeSort (fun a b => decide (a.depth ≤ b.depth))

/-- Operation `SymbolStore::lookup`: reverse scan of the inclusive key
interval `(fid,0,0) ..= (fid,addr,u16::MAX)`, collecting containing
ranges until a depth-0 entry has been visited, then sorting by depth. -/
def SymbolStore.lookup (st : SymbolStore) (fid addr : Nat) :
    List ResolvedFrame :=
  let lower : RangeKey := ⟨fid, 0, 0⟩
  let upper : RangeKey := ⟨fid, addr, 2 ^ 16 - 1⟩
  sortFramesByDepth
    (lookupLoop st fid addr ((rangeScan st.ranges lower upper).reverse))

/-- Lookup `SymbolStore::file_id_for_basename` in the in-memory index. -/
def SymbolStore.file_id_for_basename (st : SymbolStore) (basename : String) :
    Option Nat :=
  (st.basename_index.find? (fun e => e.1 == basename)).map (·.2)

/-- Operation `SymbolStore::list_files`: scan of the `files` partition. -/
def SymbolStore.list_files (st : SymbolStore) : List ExecutableInfo :=
  st.files.map (fun e => { file_id := e.1, file_name := e.2.2, num_ranges := e.2.1 })

/-- Operation `SymbolStore::remove_file_symbols`: one batch removes every
key found by the 16-byte `file_id` prefix scan of `ranges` and `strings`
(prefix match on the fixed-width big-endian keys is exactly equality of
the `file_id` field) and the `files` row; afterwards the basename index
drops every binding whose value is this `file_id`. -/
def SymbolStore.remove_file_symbols (st : SymbolStore) (fid : Nat) :
    SymbolStore :=
  let rks := (st.ranges.filter (fun e => e.1.file_id == fid)).map (·.1)
  let sks := (st.strings.filter (fun e => e.1.file_id == fid)).map (·.1)
  { ranges := rks.foldl (fun acc k => acc.filter (fun e => e.1 != k)) st.ranges
    strings := sks.foldl (fun acc k => acc.filter (fun e => e.1 != k)) st.strings
    files := st.files.filter (fun e => e.1 != fid)
    basename_index := st.basename_index.filter (fun e => e.2 != fid) }

/-! Flamescope heat map (`src/tui/state/flamescope.rs`). -/

/-- Constant `SUBSECOND_ROWS` from `flamescope.rs`. -/
def SUBSECOND_ROWS : Nat := 10

/-- Constant `NS_PER_SEC` from `flamescope.rs`. -/
def NS_PER_SEC : Nat := 1000000000

/-- Constant `NS_PER_ROW = NS_PER_SEC / SUBSECOND_ROWS`. -/
def NS_PER_ROW : Nat := NS_PER_SEC / SUBSECOND_ROWS

/-- Search overlay of the flamescope tab (`ThreadSearch`). -/
structure ThreadSearch where
  active : Bool
  input : String
  «matches» : List String
  cursor : Nat
deriving DecidableEq, Repr

/-- Flamescope tab state (`FlamescopeTab`). A `[u64; SUBSECOND_ROWS]` row
is embedded as a `List Nat` of length `SUBSECOND_ROWS`; the `threads`
`HashMap` as an association list. -/
structure FlamescopeTab where
  epoch_ns : Option Nat
  columns : List (List Nat)
  threads : List (String × List (List Nat))
  thread_names : List String
  filter : Option String
  search : ThreadSearch
  auto_scroll : Bool
  scroll_x : Nat
  cursor_col : Nat
  cursor_row : Nat
deriving DecidableEq, Repr

/-- Value of `FlamescopeTab::default()`. -/
def FlamescopeTab.default : FlamescopeTab :=
  { epoch_ns := none, columns := [], threads := [], thread_names := []
    filter := none, search := ⟨false, "", [], 0⟩, auto_scroll := true
    scroll_x := 0, cursor_col := 0, cursor_row := 0 }

/-- Zeroed row `[0u64; SUBSECOND_ROWS]`. -/
def zeroRow : List Nat := List.replicate SUBSECOND_ROWS 0

/-- Growth loop `while columns.len() <= col { columns.push([0; ROWS]) }`:
extend the matrix with zeroed rows until its length is at least `n`. -/
def growTo (cols : List (List Nat)) (n : Nat) : List (List Nat) :=
  cols ++ List.replicate (n - cols.length) zeroRow

/-- Increment `columns[col][row] += 1` after growing to length `col+1`. -/
def bumpCell (cols : List (List Nat)) (c r : Nat) : List (List Nat) :=
  (growTo cols (c + 1)).set c
    (((growTo cols (c + 1)).getD c zeroRow).set r
      (((growTo cols (c + 1)).getD c zeroRow).getD r 0 + 1))

/-- Update of the per-thread matrix: `threads.entry(thread).or_default()`
followed by an in-place mutation of the entry. -/
def updateThread (l : List (String × List (List Nat))) (k : String)
    (f : List (List Nat) → List (List Nat)) : List (String × List (List Nat)) :=
  match l with
  | [] => [(k, f [])]
  | (k0, v0) :: rest =>
    if k0 = k then (k0, f v0) :: rest else (k0, v0) :: updateThread rest k f

/-- Body of the inner `for &ts in timestamps` loop of
`FlamescopeTab::record_timestamps`: latch the epoch on first use, derive
column and row (`u64` subtraction saturates, as `Nat` subtraction does),
and bump the global and the per-thread cell. -/
def FlamescopeTab.recordOne (st : FlamescopeTab) (thread : String)
    (ts : Nat) : FlamescopeTab :=
  let epoch := st.epoch_ns.getD ts
  let offset := ts - epoch
  let col := offset / NS_PER_SEC
  let row := min ((offset % NS_PER_SEC) / NS_PER_ROW) (SUBSECOND_ROWS - 1)
  { st with
    epoch_ns := some epoch
    columns := bumpCell st.columns col row
    threads := updateThread st.threads thread (fun cols => bumpCell cols col row) }

/-- Insertion of a thread name at its `binary_search` position in the
sorted `thread_names` list. -/
def insertSortedName (l : List String) (s : String) : List String :=
  l.takeWhile (fun x => decide (x < s)) ++ s :: l.dropWhile (fun x => decide (x < s))

/-- Body of the outer `for (thread, timestamps) in entries` loop of
`record_timestamps`: register the thread name when the `threads` map does
not know the thread yet, then record each timestamp. -/
def FlamescopeTab.recordEntry (st : FlamescopeTab) (e : String × List Nat) :
    FlamescopeTab :=
  let st1 :=
    if (st.threads.find? (fun p => p.1 == e.1)).isSome then st
    else { st with thread_names := insertSortedName st.thread_names e.1 }
  e.2.foldl (fun s ts => s.recordOne e.1 ts) st1

/-- Operation `FlamescopeTab::record_timestamps`; the iteration order of
the argument `HashMap` is embedded as the order of the association list. -/
def FlamescopeTab.record_timestamps (st : FlamescopeTab)
    (entries : List (String × List Nat)) : FlamescopeTab :=
  entries.foldl FlamescopeTab.recordEntry st

/-! Flame-graph tree. The repository's `flamegraph.rs` module is not
among the provided sources (only its callers are), so the tree itself is
modelled from the spec. -/

/-- Modelled from the spec: `FlameNode` of the missing `flamegraph.rs` —
`{name, self_value: i64, total_value: i64, children: ordered sequence}`
(spec §3). -/
inductive FlameNode where
  | mk (name : String) (self_value : Int) (total_value : Int)
      (children : List FlameNode)

/-- Name of a flame node. -/
def FlameNode.name : FlameNode → String
  | .mk n _ _ _ => n

/-- Weight attributed to the node itself. -/
def FlameNode.self_value : FlameNode → Int
  | .mk _ s _ _ => s

/-- Total weight of the node's subtree. -/
def FlameNode.total_value : FlameNode → Int
  | .mk _ _ t _ => t

/-- Children of a flame node. -/
def FlameNode.children : FlameNode → List FlameNode
  | .mk _ _ _ c => c

/-- Search among siblings for a child with the given name. -/
def findByName (cs : List FlameNode) (n : String) : Option FlameNode :=
  cs.find? (fun c => c.name == n)

/-- Modelled from the spec: `FlameGraph` of the missing `flamegraph.rs`,
a synthetic root node (spec §3). -/
structure FlameGraph where
  root : FlameNode

/-- Modelled from the spec: `FlameGraph::new()` creates an empty root
with `name=""` and zero values. -/
def FlameGraph.new : FlameGraph :=
  ⟨.mk "" 0 0 []⟩

mutual

/-- Modelled from the spec: descent of `add_stack` through one node —
every visited node gains `weight` on `total_value`, the node reached by
the final frame also gains it on `self_value` (spec §4.C). -/
def addStackInto (node : FlameNode) (frames : List String) (w : Int) :
    FlameNode :=
  match node, frames with
  | .mk n sv tv cs, [] => .mk n (sv + w) (tv + w) cs
  | .mk n sv tv cs, f :: rest => .mk n sv (tv + w) (addStackChild cs f rest w)
termination_by (frames.length, 0)

/-- Modelled from the spec: locate or create the child named `f` among
the siblings and continue the `add_stack` descent inside it. -/
def addStackChild (cs : List FlameNode) (f : String) (rest : List String)
    (w : Int) : List FlameNode :=
  match cs with
  | [] => [addStackInto (.mk f 0 0 []) rest w]
  | c :: cs2 =>
    if c.name = f then addStackInto c rest w :: cs2
    else c :: addStackChild cs2 f rest w
termination_by (rest.length, cs.length + 1)

end

/-- Modelled from the spec: `FlameGraph::add_stack(frames, weight)` with
`frames[0]` the outermost (thread) frame (spec §4.C). -/
def FlameGraph.add_stack (g : FlameGraph) (frames : List String) (w : Int) :
    FlameGraph :=
  ⟨addStackInto g.root frames w⟩

/-- Modelled from the spec: `FlameNode::merge(other)` — recursively sum
values and merge children by name (spec §4.C); children of `other` with
no same-named sibling are adopted in order. -/
def FlameNode.merge : FlameNode → FlameNode → FlameNode
  | .mk n sv tv cs, b =>
    FlameNode.mk n (sv + b.self_value) (tv + b.total_value)
      ((cs.attach.map (fun c =>
          match findByName b.children c.1.name with
          | some c2 => FlameNode.merge c.1 c2
          | none => c.1)) ++
        b.children.filter (fun c2 => (findByName cs c2.name).isNone))
termination_by a _ => sizeOf a
decreasing_by
  have h := List.sizeOf_lt_of_mem c.2
  simp only [FlameNode.mk.sizeOf_spec]
  omega

/-- Ordering used by `sort_recursive`: `total_value` descending, then
`name` ascending. -/
def childOrder (a b : FlameNode) : Bool :=
  decide (b.total_value < a.total_value) ||
    (a.total_value == b.total_value && decide (a.name ≤ b.name))

/-- Modelled from the spec: `FlameNode::sort_recursive()` — children
sorted by `(total_value DESC, name ASC)`, recursively (spec §4.C). -/
def FlameNode.sort_recursive : FlameNode → FlameNode
  | .mk n sv tv cs =>
    FlameNode.mk n sv tv
      ((cs.attach.map (fun c => c.1.sort_recursive)).mergeSort childOrder)
termination_by a => sizeOf a
decreasing_by
  have h := List.sizeOf_lt_of_mem c.2
  simp only [FlameNode.mk.sizeOf_spec]
  omega

/-- Modelled from the spec: `get_zoom_node(root, zoom_path)` — descend
through child names; when a name is missing, return the deepest node
reached (spec §4.C). -/
def get_zoom_node : FlameNode → List String → FlameNode
  | n, [] => n
  | n, f :: rest =>
    match findByName n.children f with
    | some c => get_zoom_node c rest
    | none => n

/-! Flame-graph tab (`src/tui/state/flamegraph.rs`). -/

/-- Key codes used by the tab key handlers (subset of
`crossterm::event::KeyCode`). -/
inductive KeyCode where
  | down
  | up
  | left
  | right
  | enter
  | esc
  | backspace
  | tab
  | endKey
  | char (c : Char)
deriving DecidableEq, Repr

/-- Cursor selection summary (`Selection` in `flamegraph.rs`). -/
structure Selection where
  name : String
  self_value : Int
  total_value : Int
  pct : Float
  depth : Nat

/-- Search overlay state (`SearchOverlay` in `flamegraph.rs`). -/
structure SearchOverlay where
  active : Bool
  input : String
  «matches» : List (String × Nat)
  cursor : Nat

/-- Value of `SearchOverlay::default()`, used by `close`. -/
def SearchOverlay.closed : SearchOverlay :=
  { active := false, input := "", «matches» := [], cursor := 0 }

/-- Flame-graph tab state (`FlamegraphTab` in `flamegraph.rs`). -/
structure FlamegraphTab where
  graph : FlameGraph
  frozen : Bool
  profiles_received : Nat
  samples_received : Nat
  scroll_y : Nat
  cursor_path : List Nat
  zoom_path : List String
  selection : Selection
  search : SearchOverlay

/-- Case-insensitive substring test standing for Rust's
`String::contains` on the lowercased strings. -/
def strContainsSub (s pat : String) : Bool :=
  s.toList.tails.any (fun t => pat.toList.isPrefixOf t)

/-- Method `FlamegraphTab::refresh_search`: matches are the enumerated
children of `graph.root` whose names contain the lowercased query (all of
them when the query is empty), as `(name, index)` pairs. -/
def FlamegraphTab.refresh_search (t : FlamegraphTab) : FlamegraphTab :=
  let query := strToLower t.search.input
  let ms := (t.graph.root.children.enum.filter (fun p =>
      strIsEmpty query || strContainsSub (strToLower p.2.name) query)).map
      (fun p => (p.2.name, p.1))
  { t with search := { t.search with «matches» := ms } }

/-- Method `FlamegraphTab::handle_search_key`. -/
def FlamegraphTab.handle_search_key (t : FlamegraphTab) (key : KeyCode) :
    FlamegraphTab :=
  match key with
  | .esc => { t with search := SearchOverlay.closed }
  | .enter =>
    match t.search.«matches».get? t.search.cursor with
    | some m =>
      { t with zoom_path := [m.1], cursor_path := [], scroll_y := 0
               search := SearchOverlay.closed }
    | none => { t with search := SearchOverlay.closed }
  | .backspace =>
    ({ t with search :=
        { t.search with input := strPop t.search.input, cursor := 0 } }).refresh_search
  | .up =>
    { t with search := { t.search with cursor := t.search.cursor - 1 } }
  | .down =>
    if t.search.cursor + 1 < t.search.«matches».length then
      { t with search := { t.search with cursor := t.search.cursor + 1 } }
    else t
  | .char c =>
    ({ t with search :=
        { t.search with input := strPush t.search.input c, cursor := 0 } }).refresh_search
  | _ => t

/-- Method `FlamegraphTab::merge`: a no-op when frozen, otherwise merge
the incoming graph into the owned root, re-sort, and bump the counters. -/
def FlamegraphTab.merge (t : FlamegraphTab) (new_fg : FlameGraph)
    (samples : Nat) : FlamegraphTab :=
  if t.frozen then t
  else
    { t with
      graph := ⟨(t.graph.root.merge new_fg.root).sort_recursive⟩
      profiles_received := t.profiles_received + 1
      samples_received := t.samples_received + samples }

/-! Path completion (`src/tui/state/executables.rs`). The filesystem is
an explicit parameter: a partial map from a directory path to the list of
its entries, `none` standing for a failing `read_dir`. -/

/-- Directory entry as yielded by `read_dir`: file name plus the
`entry.path().is_dir()` flag. -/
structure DirEntry where
  name : String
  is_dir : Bool
deriving DecidableEq, Repr

/-- Abstract filesystem: what `std::fs::read_dir` returns per directory
path (`none` models an `Err`). -/
def FileSystem : Type := String → Option (List DirEntry)

/-- Join of a directory path and an entry name (`entry.path()` of an
entry of `read_dir(dir)`). -/
def joinPath (dir name : String) : String :=
  if strEndsWith dir "/" then dir ++ name else dir ++ "/" ++ name

/-- Helper `list_dir_entries(dir, prefix)`: read the directory, keep the
entries whose lowercased names start with the lowercased prefix (all of
them when the prefix is empty), hide dotfiles when the prefix is empty,
decorate directories with a trailing slash, and sort ascending. -/
def list_dir_entries (fsys : FileSystem) (dir : String) (pre : String) :
    List String :=
  match fsys dir with
  | none => []
  | some entries =>
    let preLower := strToLower pre
    let results := entries.filterMap (fun e =>
      if ¬ strIsEmpty preLower ∧ ¬ strStartsWith (strToLower e.name) preLower
      then none
      else if strStartsWith e.name "." ∧ strIsEmpty pre then none
      else
        let full := joinPath dir e.name
        some (if e.is_dir then full ++ "/" else full))
    results.mergeSort (fun a b => decide (a.data ≤ b.data))

/-- Split of a character list around its last occurrence of a slash. -/
def splitLastSlash : List Char → Option (List Char × List Char)
  | [] => none
  | a :: rest =>
    match splitLastSlash rest with
    | some (l, r) => some (a :: l, r)
    | none => if a = '/' then some ([], rest) else none

/-- Embedding of `Path::parent()` as the string later handed to
`read_dir`, for inputs that do not end in a slash: the text before the
last slash with trailing slashes trimmed; for a single-component input
the parent is the empty path (which `read_dir` fails on), and for a
leading-slash input it is the root. Exotic components (a trailing `.` or
`..`, doubled slashes) are excluded by the theorem hypotheses. -/
def rustParent (s : String) : String :=
  match splitLastSlash s.toList with
  | none => ""
  | some (before, _) =>
    let trimmed := (before.reverse.dropWhile (fun c => c = '/')).reverse
    if trimmed.isEmpty then (if strStartsWith s "/" then "/" else "")
    else String.mk trimmed

/-- Embedding of `Path::file_name()`: the last path component, skipping
empty and `.` components, `none` when the path ends in `..` or has no
component. -/
def rustFileName (s : String) : Option String :=
  let comps := (splitSlash s.data).filter (fun c => ¬ c.isEmpty ∧ c ≠ ['.'])
  match comps.getLast? with
  | none => none
  | some c => if c = ['.', '.'] then none else some (String.mk c)

/-- Function `compute_path_completions` of `executables.rs`. -/
def compute_path_completions (fsys : FileSystem) (input : String) :
    List String :=
  if strIsEmpty input then list_dir_entries fsys "." ""
  else if strEndsWith input "/" then list_dir_entries fsys input ""
  else list_dir_entries fsys (rustParent input) ((rustFileName input).getD "")

/-! Ingestion service (`src/grpc.rs`). The OTLP protobuf messages are
embedded as structures holding exactly the fields the service reads;
`i32`/`i64` fields become `Int`, index casts `as usize` go through
`asUsize`. -/

/-- Attribute value payload: a string value or any other variant. -/
inductive AttrVal where
  | strVal (s : String)
  | otherVal
deriving DecidableEq, Repr

/-- The `AnyValue` protobuf wrapper (`value` is optional). -/
structure AnyValue where
  value : Option AttrVal
deriving DecidableEq, Repr

/-- Attribute table row (`KeyValueAndUnit`). -/
structure KeyValueAndUnit where
  key_strindex : Int
  value : Option AnyValue
deriving DecidableEq, Repr

/-- Line record of a location. -/
structure Line where
  function_index : Int
deriving DecidableEq, Repr

/-- Function table row. -/
structure Function where
  name_strindex : Int
deriving DecidableEq, Repr

/-- Location table row (fields read by the service). -/
structure Location where
  mapping_index : Int
  address : Nat
  lines : List Line
  attribute_indices : List Int
deriving DecidableEq, Repr

/-- Mapping table row (field read by the service). -/
structure Mapping where
  filename_strindex : Int
deriving DecidableEq, Repr

/-- Stack table row. -/
structure Stack where
  location_indices : List Int
deriving DecidableEq, Repr

/-- The shared `ProfilesDictionary` of an export request. -/
structure ProfilesDictionary where
  string_table : List String
  attribute_table : List KeyValueAndUnit
  function_table : List Function
  location_table : List Location
  mapping_table : List Mapping
  stack_table : List Stack
deriving DecidableEq, Repr

/-- Sample record (fields read by the service). -/
structure Sample where
  stack_index : Int
  values : List Int
  timestamps_unix_nano : List Nat
  attribute_indices : List Int
deriving DecidableEq, Repr

/-- Profile record. -/
structure Profile where
  samples : List Sample
deriving DecidableEq, Repr

/-- Scope-profiles record. -/
structure ScopeProfiles where
  profiles : List Profile
deriving DecidableEq, Repr

/-- Resource-profiles record. -/
structure ResourceProfiles where
  scope_profiles : List ScopeProfiles
deriving DecidableEq, Repr

/-- The export request message. -/
structure ExportProfilesServiceRequest where
  dictionary : Option ProfilesDictionary
  resource_profiles : List ResourceProfiles
deriving DecidableEq, Repr

/-- The export response message; `partial_success` is embedded as an
optional opaque payload. -/
structure ExportProfilesServiceResponse where
  partial_success : Option String
deriving DecidableEq, Repr

/-- Frame-tag table of `resolve_frame_type`. -/
def mapFrameTag (s : String) : String :=
  match s with
  | "native" => "Native"
  | "kernel" => "Kernel"
  | "jvm" => "JVM"
  | "cpython" => "Python"
  | "php" => "PHP"
  | "phpjit" => "PHP"
  | "ruby" => "Ruby"
  | "perl" => "Perl"
  | "v8js" => "JS"
  | "dotnet" => ".NET"
  | "beam" => "Beam"
  | "go" => "Go"
  | other => other

/-- Loop body of `resolve_frame_type`: first attribute with key
`"profile.frame.type"` and a string value decides the tag. -/
def frameTypeLoop (dict : ProfilesDictionary) : List Int → String
  | [] => "Unknown"
  | i :: rest =>
    let ai := asUsize i
    if ai = 0 ∨ dict.attribute_table.length ≤ ai then frameTypeLoop dict rest
    else
      match dict.attribute_table.get? ai with
      | none => frameTypeLoop dict rest
      | some attr =>
        let ki := asUsize attr.key_strindex
        if dict.string_table.length ≤ ki then frameTypeLoop dict rest
        else if dict.string_table.getD ki "" ≠ "profile.frame.type" then
          frameTypeLoop dict rest
        else
          match attr.value with
          | some ⟨some (.strVal s)⟩ => mapFrameTag s
          | _ => frameTypeLoop dict rest

/-- Function `resolve_frame_type` of `grpc.rs`. -/
def resolve_frame_type (location : Location) (dict : ProfilesDictionary) :
    String :=
  frameTypeLoop dict location.attribute_indices

/-- Loop body of `resolve_thread_name`: first `"thread.name"` attribute
with a non-empty string value wins. -/
def threadNameLoop (dict : ProfilesDictionary) : List Int → String
  | [] => "[unknown]"
  | i :: rest =>
    let ai := asUsize i
    if ai = 0 ∨ dict.attribute_table.length ≤ ai then threadNameLoop dict rest
    else
      match dict.attribute_table.get? ai with
      | none => threadNameLoop dict rest
      | some attr =>
        let ki := asUsize attr.key_strindex
        if dict.string_table.length ≤ ki then threadNameLoop dict rest
        else if dict.string_table.getD ki "" ≠ "thread.name" then
          threadNameLoop dict rest
        else
          match attr.value with
          | some ⟨some (.strVal s)⟩ =>
            if ¬ strIsEmpty s then s else threadNameLoop dict rest
          | _ => threadNameLoop dict rest

/-- Function `resolve_thread_name` of `grpc.rs`. -/
def resolve_thread_name (sample : Sample) (dict : ProfilesDictionary) :
    String :=
  threadNameLoop dict sample.attribute_indices

/-- Function `resolve_mapping_filename` of `grpc.rs`. -/
def resolve_mapping_filename (location : Location)
    (dict : ProfilesDictionary) : String :=
  let mi := asUsize location.mapping_index
  if mi = 0 ∨ dict.mapping_table.length ≤ mi then "[unknown]"
  else
    match dict.mapping_table.get? mi with
    | none => "[unknown]"
    | some mapping =>
      let ni := asUsize mapping.filename_strindex
      if ni < dict.string_table.length ∧
          ¬ strIsEmpty (dict.string_table.getD ni "")
      then basename_of (dict.string_table.getD ni "")
      else "[unknown]"

/-- Function `resolve_function_name` of `grpc.rs`. -/
def resolve_function_name (line : Line) (dict : ProfilesDictionary) :
    String :=
  let fi := asUsize line.function_index
  if fi = 0 ∨ dict.function_table.length ≤ fi then "[unknown]"
  else
    match dict.function_table.get? fi with
    | none => "[unknown]"
    | some f =>
      let ni := asUsize f.name_strindex
      if ni < dict.string_table.length ∧
          ¬ strIsEmpty (dict.string_table.getD ni "")
      then dict.string_table.getD ni ""
      else "[unknown]"

/-- Hexadecimal rendering of an address, zero-padded to 16 digits
(`format!("0x{:016x}", addr)` without the `0x`). -/
def hexPad16 (n : Nat) : String :=
  let ds := Nat.toDigits 16 n
  String.mk (List.replicate (16 - ds.length) '0') ++ String.mk ds

/-- Function `resolve_unsymbolized_label` of `grpc.rs`. -/
def resolve_unsymbolized_label (location : Location)
    (dict : ProfilesDictionary) : String :=
  resolve_mapping_filename location dict ++ "+0x" ++ hexPad16 location.address

/-- Function `format_with_tag` of `grpc.rs`. -/
def format_with_tag (label tag : String) : String :=
  if strIsEmpty tag then label else label ++ " [" ++ tag ++ "]"

/-- Function `symbolize_native` of `grpc.rs`: basename lookup in the
store index, then address lookup; empty results are discarded. -/
def symbolize_native (store : SymbolStore) (location : Location)
    (dict : ProfilesDictionary) : Option (List String) :=
  match store.file_id_for_basename (resolve_mapping_filename location dict) with
  | none => none
  | some fid =>
    let resolved := store.lookup fid location.address
    if resolved.isEmpty then none else some (resolved.map (·.func))

/-- Function `pre_resolve_locations` of `grpc.rs`. -/
def pre_resolve_locations (dict : ProfilesDictionary) (store : SymbolStore) :
    List String :=
  dict.location_table.map (fun location =>
    let frame_tag := resolve_frame_type location dict
    if location.lines.isEmpty then
      match (if frame_tag = "Native" then symbolize_native store location dict
             else none) with
      | some names =>
        String.intercalate " / " (names.enum.map (fun p =>
          p.2 ++ " [Native]" ++ (if 0 < p.1 then " [Inline]" else "")))
      | none => format_with_tag (resolve_unsymbolized_label location dict) frame_tag
    else
      String.intercalate " / " (location.lines.enum.map (fun p =>
        resolve_function_name p.2 dict ++ " [" ++ frame_tag ++ "]" ++
          (if 0 < p.1 then " [Inline]" else ""))))

/-- Function `unknown_basenames` of `grpc.rs`: fold over the mapping
table (skipping index 0) collecting new basenames; returns the collected
names together with the updated process-wide known-paths set (the shared
`RwLock<HashSet>` is embedded as an explicit list threaded through). -/
def unknown_basenames (known : List String) (dict : ProfilesDictionary) :
    List String × List String :=
  (dict.mapping_table.drop 1).foldl
    (fun acc mapping =>
      let ni := asUsize mapping.filename_strindex
      if ni ≠ 0 ∧ ni < dict.string_table.length then
        let full_path := dict.string_table.getD ni ""
        if ¬ strIsEmpty full_path ∧ ¬ acc.2.contains full_path then
          let bname := basename_of full_path
          if ¬ strIsEmpty bname ∧ ¬ strStartsWith bname "[" then
            (acc.1 ++ [bname], acc.2 ++ [full_path])
          else acc
        else acc
      else acc)
    ([], known)

/-- Events posted on the event bus by the ingestion service. -/
inductive Event where
  | MappingsDiscovered (names : List String)
  | ProfileUpdate (flamegraph : FlameGraph) (samples : Nat)
      (timestamps : List (String × List Nat))

/-- Per-request mutable state of `process_export`: the memoized collapsed
stacks per `stack_index`, the per-request flame graph, the accumulated
sample count, and the per-thread timestamp lists. -/
structure ExportState where
  flamegraph : FlameGraph
  stack_cache : List (Int × List String)
  sample_count : Nat
  thread_timestamps : List (String × List Nat)

/-- Initial per-request state. -/
def ExportState.init : ExportState :=
  { flamegraph := FlameGraph.new, stack_cache := [], sample_count := 0
    thread_timestamps := [] }

/-- Lookup into the per-request `stack_cache` `HashMap`. -/
def lookupStack (cache : List (Int × List String)) (si : Int) :
    Option (List String) :=
  (cache.find? (fun e => e.1 == si)).map (·.2)

/-- Closure of `stack_cache.entry(..).or_insert_with(..)`: build the
collapsed stack for a sample's `stack_index` — location labels, reversed
into root-to-leaf order, with the resolved thread name prepended; an
out-of-range or zero `stack_index` yields the empty stack. -/
def build_stack (dict : ProfilesDictionary) (location_cache : List String)
    (sample : Sample) : List String :=
  let idx := asUsize sample.stack_index
  if idx = 0 ∨ dict.stack_table.length ≤ idx then []
  else
    match dict.stack_table.get? idx with
    | none => []
    | some stk =>
      let frames :=
        (stk.location_indices.filterMap
          (fun li => location_cache.get? (asUsize li))).reverse
      resolve_thread_name sample dict :: frames

/-- Append to `thread_timestamps.entry(name).or_default()`. -/
def appendTimestamps : List (String × List Nat) → String → List Nat →
    List (String × List Nat)
  | [], k, ts => [(k, ts)]
  | (k0, v0) :: rest, k, ts =>
    if k0 = k then (k0, v0 ++ ts) :: rest
    else (k0, v0) :: appendTimestamps rest k ts

/-- Body of the per-sample loop of `process_export`: memoize the
collapsed stack, skip empty stacks, compute the sample value
(timestamp count, else `max(1, Σ values)`, else 1), append timestamps
under the stack's thread frame, add the stack to the per-request flame
graph, and accumulate `sample_count += value as u64`. -/
def process_sample (dict : ProfilesDictionary) (location_cache : List String)
    (st : ExportState) (sample : Sample) : ExportState :=
  let found := lookupStack st.stack_cache sample.stack_index
  let stack := found.getD (build_stack dict location_cache sample)
  let cache1 :=
    match found with
    | some _ => st.stack_cache
    | none => st.stack_cache ++ [(sample.stack_index, stack)]
  if stack.isEmpty then { st with stack_cache := cache1 }
  else
    let tsne := ¬ sample.timestamps_unix_nano.isEmpty
    let value : Int :=
      if tsne then (sample.timestamps_unix_nano.length : Int)
      else if ¬ sample.values.isEmpty then max (sample.values.sum) 1
      else 1
    let tts1 :=
      if tsne then
        appendTimestamps st.thread_timestamps (stack.headD "")
          sample.timestamps_unix_nano
      else st.thread_timestamps
    { flamegraph := st.flamegraph.add_stack stack value
      stack_cache := cache1
      sample_count := st.sample_count + value.toNat
      thread_timestamps := tts1 }

/-- Function `process_export` of `grpc.rs`: absent dictionary returns at
once; otherwise pre-resolve locations, fold every sample through
`process_sample`, and emit `MappingsDiscovered` (when non-empty) followed
by `ProfileUpdate`. Returns the emitted events and the updated known
set. -/
def process_export (req : ExportProfilesServiceRequest)
    (store : SymbolStore) (known : List String) :
    List Event × List String :=
  match req.dictionary with
  | none => ([], known)
  | some dict =>
    let location_cache := pre_resolve_locations dict store
    let stF := req.resource_profiles.foldl (fun s rp =>
      rp.scope_profiles.foldl (fun s sp =>
        sp.profiles.foldl (fun s p =>
          p.samples.foldl
            (fun s sample => process_sample dict location_cache s sample) s)
          s) s) ExportState.init
    let bk := unknown_basenames known dict
    let evs :=
      (if bk.1.isEmpty then [] else [Event.MappingsDiscovered bk.1]) ++
        [Event.ProfileUpdate stF.flamegraph stF.sample_count
          stF.thread_timestamps]
    (evs, bk.2)

/-- The gRPC `export` handler: the work is offloaded, and the reply is
always success with `partial_success` unset. -/
def ProfilesServer.export (_req : ExportProfilesServiceRequest) :
    ExportProfilesServiceResponse :=
  { partial_success := none }

/-! Helper lemmas. -/

/-- Membership after repeatedly deleting all entries with the scanned
keys, as the remove batch does. -/
theorem mem_eraseFold {κ ν : Type} [DecidableEq κ] (ks : List κ)
    (l : List (κ × ν)) (x : κ × ν) :
    (x ∈ ks.foldl (fun acc k => acc.filter (fun e => e.1 != k)) l) ↔
      x ∈ l ∧ x.1 ∉ ks := by
  induction ks generalizing l with
  | nil => simp
  | cons k ks ih =>
    simp only [List.foldl_cons, ih, List.mem_filter, bne_iff_ne, ne_eq,
      List.mem_cons]
    tauto

/-- Example range for witnesses. -/
def exRange0 : SymRange :=
  { va_start := 0x2000, length := 0x100, func := 0, file := none
    call_file := none, call_line := none, depth := 0 }

/-- Example inline range for witnesses. -/
def exRange1 : SymRange :=
  { va_start := 0x2000, length := 0x100, func := 1, file := none
    call_file := none, call_line := none, depth := 1 }

/-- Example file symbols for witnesses. -/
def exFileSym : FileSym :=
  { file_id := 7, ranges := [exRange0, exRange1], strings := ["bar", "baz"] }

/-- Second example file for witnesses, under a different file id. -/
def exFileSym2 : FileSym :=
  { file_id := 5
    ranges := [{ va_start := 0x10, length := 4, func := 0, file := none
                 call_file := none, call_line := none, depth := 0 }]
    strings := ["qux"] }

/-- Example store holding the two example files. -/
def exStore : SymbolStore :=
  (SymbolStore.openEmpty.store_file_symbols exFileSym "/usr/bin/app").store_file_symbols
    exFileSym2 "/usr/bin/tool"

/-! Claim C2. -/

/-- C2: after `remove_file_symbols(fid)`, no key with the `fid` prefix
remains in the `ranges` or `strings` partitions, the `files` row for
`fid` is gone, every basename-index binding to `fid` is evicted, and
entries of other file ids are untouched in all three partitions. -/
theorem remove_file_symbols_spec (st : SymbolStore) (fid : Nat) :
    (∀ e ∈ (st.remove_file_symbols fid).ranges, e.1.file_id ≠ fid) ∧
    (∀ e ∈ (st.remove_file_symbols fid).strings, e.1.file_id ≠ fid) ∧
    (∀ e ∈ (st.remove_file_symbols fid).files, e.1 ≠ fid) ∧
    (∀ e ∈ (st.remove_file_symbols fid).basename_index, e.2 ≠ fid) ∧
    (∀ e, e.1.file_id ≠ fid →
      (e ∈ (st.remove_file_symbols fid).ranges ↔ e ∈ st.ranges)) ∧
    (∀ e, e.1.file_id ≠ fid →
      (e ∈ (st.remove_file_symbols fid).strings ↔ e ∈ st.strings)) ∧
    (∀ e, e.1 ≠ fid →
      (e ∈ (st.remove_file_symbols fid).files ↔ e ∈ st.files)) := by
  unfold SymbolStore.remove_file_symbols
  simp only [mem_eraseFold, List.mem_map, List.mem_filter, beq_iff_eq,
    List.mem_filter, bne_iff_ne, ne_eq]
  refine ⟨?_, ?_, ?_, ?_, ?_, ?_, ?_⟩
  · rintro e ⟨he, hnk⟩
    intro hf
    exact hnk ⟨e, ⟨he, hf⟩, rfl⟩
  · rintro e ⟨he, hnk⟩
    intro hf
    exact hnk ⟨e, ⟨he, hf⟩, rfl⟩
  · rintro e ⟨_, hne⟩
    exact hne
  · rintro e ⟨_, hne⟩
    exact hne
  · intro e hne
    constructor
    · rintro ⟨he, _⟩
      exact he
    · intro he
      refine ⟨he, ?_⟩
      rintro ⟨f, ⟨_, hf⟩, hkey⟩
      exact hne (hkey ▸ hf)
  · intro e hne
    constructor
    · rintro ⟨he, _⟩
      exact he
    · intro he
      refine ⟨he, ?_⟩
      rintro ⟨f, ⟨_, hf⟩, hkey⟩
      exact hne (hkey ▸ hf)
  · intro e hne
    constructor
    · rintro ⟨he, _⟩
      exact he
    · intro he
      exact ⟨he, hne⟩

/-- Witness for C2 at the concrete example store: the file-5 range entry
survives the removal of file 7. -/
theorem remove_file_symbols_spec_witness :
    ((⟨5, 0x10, 0⟩, (⟨4, 0, NONE_REF, NONE_REF, 0⟩ : RangeValue)) ∈
        (exStore.remove_file_symbols 7).ranges ↔
      (⟨5, 0x10, 0⟩, (⟨4, 0, NONE_REF, NONE_REF, 0⟩ : RangeValue)) ∈
        exStore.ranges) :=
  (remove_file_symbols_spec exStore 7).2.2.2.2.1 _ (by decide)

/-! Claim C9. -/

/-- C9: merging an incoming profile update into a frozen flame-graph tab
is a no-op — the whole tab state, in particular the graph tree and the
`profiles_received` and `samples_received` counters, is unchanged. -/
theorem frozen_merge_noop (t : FlamegraphTab) (fg : FlameGraph)
    (samples : Nat) (h : t.frozen = true) : t.merge fg samples = t := by
  simp [FlamegraphTab.merge, h]

/-- Example frozen tab for the C9 witness. -/
def exFrozenTab : FlamegraphTab :=
  { graph := ⟨.mk "" 3 3 [.mk "t" 3 3 []]⟩, frozen := true
    profiles_received := 4, samples_received := 9, scroll_y := 0
    cursor_path := [], zoom_path := []
    selection := ⟨"", 0, 0, 0.0, 0⟩
    search := SearchOverlay.closed }

/-- Witness for C9: the concrete frozen tab absorbs a non-trivial update
unchanged. -/
theorem frozen_merge_noop_witness :
    exFrozenTab.merge ⟨.mk "" 0 5 [.mk "u" 5 5 []]⟩ 5 = exFrozenTab :=
  frozen_merge_noop exFrozenTab _ 5 rfl

/-! Claim C6. -/

/-- C6: an export request without a dictionary produces no event and
leaves the known-basenames state untouched, and the RPC response never
carries `partial_success`. -/
theorem export_no_dictionary_spec (req : ExportProfilesServiceRequest)
    (store : SymbolStore) (known : List String)
    (h : req.dictionary = none) :
    process_export req store known = ([], known) ∧
    (∀ r : ExportProfilesServiceRequest,
      (ProfilesServer.export r).partial_success = none) := by
  constructor
  · unfold process_export
    rw [h]
  · intro r
    rfl

/-- Witness for C6 at a concrete dictionary-free request. -/
theorem export_no_dictionary_spec_witness :
    process_export ⟨none, [⟨[⟨[⟨[⟨1, [2], [], []⟩]⟩]⟩]⟩]⟩
        SymbolStore.openEmpty ["known"] = ([], ["known"]) ∧
    (∀ r : ExportProfilesServiceRequest,
      (ProfilesServer.export r).partial_success = none) :=
  export_no_dictionary_spec _ _ _ rfl

/-! Flamescope lemmas, for claims C4 and C5. -/

/-- Read of one heat-map cell; out-of-range positions read 0, matching
what a freshly grown zero row holds. -/
def cellGet (cols : List (List Nat)) (c r : Nat) : Nat :=
  (cols.getD c zeroRow).getD r 0

/-- Sum of all cells of a matrix. -/
def totalCells (cols : List (List Nat)) : Nat :=
  (cols.map (fun row => row.sum)).sum

/-- Matrix recorded for one thread (empty when the thread is unknown). -/
def findTh (l : List (String × List (List Nat))) (k : String) :
    List (List Nat) :=
  ((l.find? (fun p => p.1 == k)).map (·.2)).getD []

/-- Column a timestamp lands in, as the spec states it:
`max(0, ts - epoch) / NS_PER_SEC` with the epoch latched on first use. -/
def flamescopeCol (st : FlamescopeTab) (ts : Nat) : Nat :=
  (ts - st.epoch_ns.getD ts) / NS_PER_SEC

/-- Row a timestamp lands in, as the spec states it:
`min(ROWS-1, (max(0, ts - epoch) mod NS_PER_SEC) / NS_PER_ROW)`. -/
def flamescopeRow (st : FlamescopeTab) (ts : Nat) : Nat :=
  min (((ts - st.epoch_ns.getD ts) % NS_PER_SEC) / NS_PER_ROW)
    (SUBSECOND_ROWS - 1)

/-- Well-formedness of the heat-map state: every materialized row has
exactly `SUBSECOND_ROWS` cells. -/
def WFtab (st : FlamescopeTab) : Prop :=
  (∀ row ∈ st.columns, row.length = SUBSECOND_ROWS) ∧
  (∀ p ∈ st.threads, ∀ row ∈ p.2, row.length = SUBSECOND_ROWS)

theorem length_growTo (cols : List (List Nat)) (n : Nat) :
    (growTo cols n).length = max cols.length n := by
  simp only [growTo, List.length_append, List.length_replicate]
  omega

theorem zeroRow_getD (r : Nat) : zeroRow.getD r 0 = 0 := by
  unfold zeroRow
  rw [List.getD_eq_getElem?_getD, List.getElem?_replicate]
  split <;> rfl

theorem getD_mem (l : List (List Nat)) (c : Nat) (h : c < l.length) :
    l.getD c zeroRow ∈ l := by
  rw [List.getD_eq_getElem?_getD, List.getElem?_eq_getElem h]
  exact List.getElem_mem h

theorem getD_growTo (cols : List (List Nat)) (n c : Nat) :
    (growTo cols n).getD c zeroRow = cols.getD c zeroRow := by
  unfold growTo
  rw [List.getD_eq_getElem?_getD, List.getD_eq_getElem?_getD,
    List.getElem?_append]
  split
  · rfl
  · rename_i hc
    rw [List.getElem?_replicate]
    have hnone : cols[c]? = none := by
      rw [List.getElem?_eq_none]
      omega
    rw [hnone]
    split <;> rfl

theorem cellGet_growTo (cols : List (List Nat)) (n c r : Nat) :
    cellGet (growTo cols n) c r = cellGet cols c r := by
  unfold cellGet
  rw [getD_growTo]

theorem getD_set_self (l : List (List Nat)) (c : Nat) (x : List Nat)
    (h : c < l.length) : (l.set c x).getD c zeroRow = x := by
  rw [List.getD_eq_getElem?_getD, List.getElem?_set_self h]
  rfl

theorem getD_set_ne (l : List (List Nat)) (c c2 : Nat) (x : List Nat)
    (h : c ≠ c2) : (l.set c x).getD c2 zeroRow = l.getD c2 zeroRow := by
  rw [List.getD_eq_getElem?_getD, List.getElem?_set_ne h,
    ← List.getD_eq_getElem?_getD]

theorem getDr_set_self (l : List Nat) (r x : Nat) (h : r < l.length) :
    (l.set r x).getD r 0 = x := by
  rw [List.getD_eq_getElem?_getD, List.getElem?_set_self h]
  rfl

theorem getDr_set_ne (l : List Nat) (r r2 x : Nat) (h : r ≠ r2) :
    (l.set r x).getD r2 0 = l.getD r2 0 := by
  rw [List.getD_eq_getElem?_getD, List.getElem?_set_ne h,
    ← List.getD_eq_getElem?_getD]

theorem rows_growTo (cols : List (List Nat)) (n : Nat)
    (hwf : ∀ row ∈ cols, row.length = SUBSECOND_ROWS) :
    ∀ row ∈ growTo cols n, row.length = SUBSECOND_ROWS := by
  intro row hr
  rcases List.mem_append.mp hr with h | h
  · exact hwf row h
  · rcases List.mem_replicate.mp h with ⟨_, rfl⟩
    simp [zeroRow]

theorem sum_set_add (l : List Nat) (i x : Nat) (h : i < l.length) :
    (l.set i x).sum + l.getD i 0 = l.sum + x := by
  induction l generalizing i with
  | nil => simp at h
  | cons a l ih =>
    cases i with
    | zero => simp only [List.set, List.sum_cons, List.getD_cons_zero]; omega
    | succ i =>
      have h2 : i < l.length := by simpa using h
      have := ih i h2
      simp only [List.set, List.sum_cons, List.getD_cons_succ]
      omega

theorem getD_map_sum (g : List (List Nat)) (c : Nat) (h : c < g.length) :
    (g.map (fun row => row.sum)).getD c 0 = (g.getD c zeroRow).sum := by
  rw [List.getD_eq_getElem?_getD, List.getD_eq_getElem?_getD,
    List.getElem?_map, List.getElem?_eq_getElem h]
  simp

theorem totalCells_set (g : List (List Nat)) (c : Nat) (x : List Nat)
    (h : c < g.length) :
    totalCells (g.set c x) + (g.getD c zeroRow).sum = totalCells g + x.sum := by
  unfold totalCells
  simp only [List.map_set]
  have h2 : c < (g.map (fun row => row.sum)).length := by simpa using h
  have hs := sum_set_add (g.map (fun row => row.sum)) c x.sum h2
  have h3 := getD_map_sum g c h
  omega

theorem totalCells_growTo (cols : List (List Nat)) (n : Nat) :
    totalCells (growTo cols n) = totalCells cols := by
  unfold totalCells growTo
  rw [List.map_append, List.sum_append, List.map_replicate]
  simp [zeroRow]

theorem length_bumpCell (cols : List (List Nat)) (c r : Nat) :
    (bumpCell cols c r).length = max cols.length (c + 1) := by
  unfold bumpCell
  rw [List.length_set, length_growTo]

theorem rows_bumpCell (cols : List (List Nat)) (c r : Nat)
    (hwf : ∀ row ∈ cols, row.length = SUBSECOND_ROWS) :
    ∀ row ∈ bumpCell cols c r, row.length = SUBSECOND_ROWS := by
  unfold bumpCell
  intro row hrow
  rcases List.mem_or_eq_of_mem_set hrow with h | h
  · exact rows_growTo _ _ hwf row h
  · subst h
    rw [List.length_set]
    have hc : c < (growTo cols (c + 1)).length := by
      rw [length_growTo]; omega
    exact rows_growTo _ _ hwf _ (getD_mem _ _ hc)

theorem cellGet_bumpCell_self (cols : List (List Nat)) (c r : Nat)
    (hwf : ∀ row ∈ cols, row.length = SUBSECOND_ROWS)
    (hr : r < SUBSECOND_ROWS) :
    cellGet (bumpCell cols c r) c r = cellGet cols c r + 1 := by
  have hc : c < (growTo cols (c + 1)).length := by
    rw [length_growTo]; omega
  have hrlen : ((growTo cols (c + 1)).getD c zeroRow).length = SUBSECOND_ROWS :=
    rows_growTo _ _ hwf _ (getD_mem _ _ hc)
  have hgrow := getD_growTo cols (c + 1) c
  unfold cellGet bumpCell
  rw [getD_set_self _ _ _ hc, getDr_set_self _ _ _ (by omega), hgrow]

theorem cellGet_bumpCell_other (cols : List (List Nat)) (c r c2 r2 : Nat)
    (h : ¬ (c2 = c ∧ r2 = r)) :
    cellGet (bumpCell cols c r) c2 r2 = cellGet cols c2 r2 := by
  by_cases hc : c2 = c
  · subst hc
    have hr2 : r ≠ r2 := by
      intro hh
      exact h ⟨rfl, hh.symm⟩
    have hc2 : c2 < (growTo cols (c2 + 1)).length := by
      rw [length_growTo]; omega
    unfold cellGet bumpCell
    rw [getD_set_self _ _ _ hc2, getDr_set_ne _ _ _ _ hr2, getD_growTo]
  · have hne : c ≠ c2 := fun hh => hc hh.symm
    unfold cellGet bumpCell
    rw [getD_set_ne _ _ _ _ hne, getD_growTo]

theorem totalCells_bumpCell (cols : List (List Nat)) (c r : Nat)
    (hwf : ∀ row ∈ cols, row.length = SUBSECOND_ROWS)
    (hr : r < SUBSECOND_ROWS) :
    totalCells (bumpCell cols c r) = totalCells cols + 1 := by
  have hc : c < (growTo cols (c + 1)).length := by
    rw [length_growTo]; omega
  have hrlen : ((growTo cols (c + 1)).getD c zeroRow).length = SUBSECOND_ROWS :=
    rows_growTo _ _ hwf _ (getD_mem _ _ hc)
  have hset := totalCells_set (growTo cols (c + 1)) c
    (((growTo cols (c + 1)).getD c zeroRow).set r
      (((growTo cols (c + 1)).getD c zeroRow).getD r 0 + 1)) hc
  have hsum := sum_set_add ((growTo cols (c + 1)).getD c zeroRow) r
    (((growTo cols (c + 1)).getD c zeroRow).getD r 0 + 1) (by omega)
  have hgrow := totalCells_growTo cols (c + 1)
  unfold bumpCell
  omega

theorem findTh_updateThread_self (l : List (String × List (List Nat)))
    (k : String) (f : List (List Nat) → List (List Nat)) :
    findTh (updateThread l k f) k = f (findTh l k) := by
  induction l with
  | nil => simp [updateThread, findTh]
  | cons p l ih =>
    obtain ⟨k0, v0⟩ := p
    by_cases h : k0 = k
    · subst h
      simp [updateThread, findTh, List.find?]
    · simp only [updateThread, if_neg h, findTh, List.find?_cons]
      have hb : ((k0, v0).1 == k) = false := by
        simp [h]
      rw [hb]
      exact ih

theorem findTh_updateThread_other (l : List (String × List (List Nat)))
    (k th : String) (f : List (List Nat) → List (List Nat)) (h : th ≠ k) :
    findTh (updateThread l k f) th = findTh l th := by
  have hb : (k == th) = false := by
    simp only [beq_eq_false_iff_ne, ne_eq]
    exact fun hh => h hh.symm
  induction l with
  | nil => simp [updateThread, findTh, List.find?_cons, hb]
  | cons p l ih =>
    obtain ⟨k0, v0⟩ := p
    by_cases hk : k0 = k
    · subst hk
      simp [updateThread, findTh, List.find?_cons, hb]
    · by_cases hth : k0 = th
      · subst hth
        simp [updateThread, hk, findTh, List.find?_cons]
      · have hb0 : (k0 == th) = false := by
          simp [beq_eq_false_iff_ne, hth]
        simp only [updateThread, if_neg hk, findTh, List.find?_cons, hb0] at ih ⊢
        exact ih

theorem rows_updateThread (l : List (String × List (List Nat))) (k : String)
    (f : List (List Nat) → List (List Nat))
    (hl : ∀ p ∈ l, ∀ row ∈ p.2, row.length = SUBSECOND_ROWS)
    (hf : ∀ v, (∀ row ∈ v, row.length = SUBSECOND_ROWS) →
      ∀ row ∈ f v, row.length = SUBSECOND_ROWS) :
    ∀ p ∈ updateThread l k f, ∀ row ∈ p.2, row.length = SUBSECOND_ROWS := by
  induction l with
  | nil =>
    intro p hp
    simp only [updateThread, List.mem_singleton] at hp
    subst hp
    exact hf [] (by simp)
  | cons q l ih =>
    obtain ⟨k0, v0⟩ := q
    by_cases h : k0 = k
    · subst h
      intro p hp
      rw [show updateThread ((k0, v0) :: l) k0 f = (k0, f v0) :: l from by
        simp [updateThread]] at hp
      rcases List.mem_cons.mp hp with hp | hp
      · subst hp
        exact hf v0 (hl (k0, v0) (by simp))
      · exact hl p (by simp [hp])
    · intro p hp
      rw [show updateThread ((k0, v0) :: l) k f =
          (k0, v0) :: updateThread l k f from by simp [updateThread, h]] at hp
      rcases List.mem_cons.mp hp with hp | hp
      · subst hp
        exact hl (k0, v0) (by simp)
      · exact ih (fun q hq => hl q (by simp [hq])) p hp

theorem findTh_wf (l : List (String × List (List Nat))) (th : String)
    (h : ∀ p ∈ l, ∀ row ∈ p.2, row.length = SUBSECOND_ROWS) :
    ∀ row ∈ findTh l th, row.length = SUBSECOND_ROWS := by
  unfold findTh
  cases hfind : l.find? (fun p => p.1 == th) with
  | none => simp
  | some p =>
    exact fun row hr => h p (List.mem_of_find?_eq_some hfind) row hr

theorem recordOne_invariants (st : FlamescopeTab) (thread : String) (ts : Nat)
    (hwf : WFtab st) :
    WFtab (st.recordOne thread ts) ∧
    totalCells (st.recordOne thread ts).columns = totalCells st.columns + 1 ∧
    totalCells (findTh (st.recordOne thread ts).threads thread) =
      totalCells (findTh st.threads thread) + 1 ∧
    (∀ th, th ≠ thread →
      findTh (st.recordOne thread ts).threads th = findTh st.threads th) := by
  obtain ⟨hwfc, hwft⟩ := hwf
  have hr : min (((ts - st.epoch_ns.getD ts) % NS_PER_SEC) / NS_PER_ROW)
      (SUBSECOND_ROWS - 1) < SUBSECOND_ROWS := by
    have := Nat.min_le_right
      (((ts - st.epoch_ns.getD ts) % NS_PER_SEC) / NS_PER_ROW)
      (SUBSECOND_ROWS - 1)
    simp only [SUBSECOND_ROWS] at *
    omega
  refine ⟨⟨?_, ?_⟩, ?_, ?_, ?_⟩
  · exact rows_bumpCell _ _ _ hwfc
  · exact rows_updateThread _ _ _ hwft
      (fun v hv => rows_bumpCell _ _ _ hv)
  · exact totalCells_bumpCell _ _ _ hwfc hr
  · rw [show (st.recordOne thread ts).threads =
        updateThread st.threads thread
          (fun cols => bumpCell cols ((ts - st.epoch_ns.getD ts) / NS_PER_SEC)
            (min (((ts - st.epoch_ns.getD ts) % NS_PER_SEC) / NS_PER_ROW)
              (SUBSECOND_ROWS - 1))) from rfl,
      findTh_updateThread_self]
    exact totalCells_bumpCell _ _ _ (findTh_wf _ _ hwft) hr
  · intro th hth
    exact findTh_updateThread_other _ _ _ _ hth

theorem recordMany_invariants (tss : List Nat) (thread : String) :
    ∀ st : FlamescopeTab, WFtab st →
    WFtab (tss.foldl (fun s ts => s.recordOne thread ts) st) ∧
    totalCells (tss.foldl (fun s ts => s.recordOne thread ts) st).columns =
      totalCells st.columns + tss.length ∧
    totalCells (findTh (tss.foldl (fun s ts => s.recordOne thread ts) st).threads
        thread) =
      totalCells (findTh st.threads thread) + tss.length ∧
    (∀ th, th ≠ thread →
      findTh (tss.foldl (fun s ts => s.recordOne thread ts) st).threads th =
        findTh st.threads th) := by
  induction tss with
  | nil => intro st hwf; exact ⟨hwf, by simp, by simp, fun _ _ => rfl⟩
  | cons ts tss ih =>
    intro st hwf
    obtain ⟨h1, h2, h3, h4⟩ := recordOne_invariants st thread ts hwf
    obtain ⟨g1, g2, g3, g4⟩ := ih (st.recordOne thread ts) h1
    refine ⟨g1, ?_, ?_, ?_⟩
    · simp only [List.foldl_cons, List.length_cons]
      omega
    · simp only [List.foldl_cons, List.length_cons]
      omega
    · intro th hth
      simp only [List.foldl_cons]
      rw [g4 th hth, h4 th hth]

theorem recordEntry_invariants (st : FlamescopeTab) (e : String × List Nat)
    (hwf : WFtab st) :
    WFtab (st.recordEntry e) ∧
    totalCells (st.recordEntry e).columns = totalCells st.columns + e.2.length ∧
    totalCells (findTh (st.recordEntry e).threads e.1) =
      totalCells (findTh st.threads e.1) + e.2.length ∧
    (∀ th, th ≠ e.1 →
      findTh (st.recordEntry e).threads th = findTh st.threads th) := by
  unfold FlamescopeTab.recordEntry
  split
  · exact recordMany_invariants e.2 e.1 st hwf
  · exact recordMany_invariants e.2 e.1 _ ⟨hwf.1, hwf.2⟩

/-- Total number of timestamps in one `record_timestamps` argument. -/
def batchCount (b : List (String × List Nat)) : Nat :=
  (b.map (fun e => e.2.length)).sum

/-- Number of timestamps recorded for one thread by one argument. -/
def batchCountFor (th : String) (b : List (String × List Nat)) : Nat :=
  ((b.filter (fun e => e.1 == th)).map (fun e => e.2.length)).sum

theorem record_timestamps_invariants (entries : List (String × List Nat)) :
    ∀ st : FlamescopeTab, WFtab st →
    WFtab (st.record_timestamps entries) ∧
    totalCells (st.record_timestamps entries).columns =
      totalCells st.columns + batchCount entries ∧
    (∀ th, totalCells (findTh (st.record_timestamps entries).threads th) =
      totalCells (findTh st.threads th) + batchCountFor th entries) := by
  induction entries with
  | nil =>
    intro st hwf
    exact ⟨hwf, by simp [FlamescopeTab.record_timestamps, batchCount],
      fun th => by simp [FlamescopeTab.record_timestamps, batchCountFor]⟩
  | cons e entries ih =>
    intro st hwf
    obtain ⟨h1, h2, h3, h4⟩ := recordEntry_invariants st e hwf
    obtain ⟨g1, g2, g3⟩ := ih (st.recordEntry e) h1
    have hrec : st.record_timestamps (e :: entries) =
        (st.recordEntry e).record_timestamps entries := rfl
    refine ⟨by rw [hrec]; exact g1, ?_, ?_⟩
    · rw [hrec, g2, h2]
      simp only [batchCount, List.map_cons, List.sum_cons]
      omega
    · intro th
      rw [hrec, g3]
      by_cases hth : th = e.1
      · subst hth
        rw [h3]
        simp only [batchCountFor, List.filter_cons, beq_self_eq_true,
          if_pos rfl, List.map_cons, List.sum_cons]
        simp
        omega
      · rw [h4 th hth]
        have : batchCountFor th (e :: entries) = batchCountFor th entries := by
          simp only [batchCountFor, List.filter_cons]
          have hb : (e.1 == th) = false := by
            simp
            exact fun hh => hth hh.symm
          rw [hb]
          simp
        rw [this]

/-! Claim C4. -/

/-- Concrete epoch for the bucketing example of C4. -/
def exEpoch : Nat := 1000000000000000000

/-- Heat map after recording the example timestamps of C4. -/
def exFlamescope : FlamescopeTab :=
  FlamescopeTab.record_timestamps FlamescopeTab.default
    [("t", [exEpoch, exEpoch + 50000000, exEpoch + 150000000,
      exEpoch + 1100000000])]

/-- C4: each recorded timestamp latches the epoch on first use, and its
increment lands exactly in column `(ts - epoch) / 10^9` and row
`min(9, ((ts - epoch) mod 10^9) / 10^8)` of both the global and the
thread matrix, each grown to hold the column and otherwise untouched;
recording `[E, E+50ms, E+150ms, E+1.1s]` yields cells `(0,0)=2`,
`(0,1)=1`, `(1,1)=1` in both matrices. -/
theorem record_timestamps_bucketing (st : FlamescopeTab) (thread : String)
    (ts : Nat)
    (hwf : ∀ row ∈ st.columns, row.length = SUBSECOND_ROWS)
    (hwfth : ∀ row ∈ findTh st.threads thread, row.length = SUBSECOND_ROWS) :
    ((st.recordOne thread ts).epoch_ns = some (st.epoch_ns.getD ts) ∧
     (st.recordOne thread ts).columns.length =
       max st.columns.length (flamescopeCol st ts + 1) ∧
     cellGet (st.recordOne thread ts).columns (flamescopeCol st ts)
         (flamescopeRow st ts) =
       cellGet st.columns (flamescopeCol st ts) (flamescopeRow st ts) + 1 ∧
     (∀ c r, ¬ (c = flamescopeCol st ts ∧ r = flamescopeRow st ts) →
       cellGet (st.recordOne thread ts).columns c r = cellGet st.columns c r) ∧
     (findTh (st.recordOne thread ts).threads thread).length =
       max (findTh st.threads thread).length (flamescopeCol st ts + 1) ∧
     cellGet (findTh (st.recordOne thread ts).threads thread)
         (flamescopeCol st ts) (flamescopeRow st ts) =
       cellGet (findTh st.threads thread) (flamescopeCol st ts)
         (flamescopeRow st ts) + 1 ∧
     (∀ c r, ¬ (c = flamescopeCol st ts ∧ r = flamescopeRow st ts) →
       cellGet (findTh (st.recordOne thread ts).threads thread) c r =
         cellGet (findTh st.threads thread) c r)) ∧
    (cellGet exFlamescope.columns 0 0 = 2 ∧
     cellGet exFlamescope.columns 0 1 = 1 ∧
     cellGet exFlamescope.columns 1 1 = 1 ∧
     cellGet (findTh exFlamescope.threads "t") 0 0 = 2 ∧
     cellGet (findTh exFlamescope.threads "t") 0 1 = 1 ∧
     cellGet (findTh exFlamescope.threads "t") 1 1 = 1) := by
  have hcol : (st.recordOne thread ts).columns =
      bumpCell st.columns (flamescopeCol st ts) (flamescopeRow st ts) := rfl
  have hth : (st.recordOne thread ts).threads =
      updateThread st.threads thread
        (fun cols => bumpCell cols (flamescopeCol st ts) (flamescopeRow st ts)) :=
    rfl
  have hr : flamescopeRow st ts < SUBSECOND_ROWS := by
    have := Nat.min_le_right
      (((ts - st.epoch_ns.getD ts) % NS_PER_SEC) / NS_PER_ROW)
      (SUBSECOND_ROWS - 1)
    unfold flamescopeRow
    simp only [SUBSECOND_ROWS] at *
    omega
  refine ⟨⟨rfl, ?_, ?_, ?_, ?_, ?_, ?_⟩, ?_⟩
  · rw [hcol, length_bumpCell]
  · rw [hcol]
    exact cellGet_bumpCell_self _ _ _ hwf hr
  · intro c r h
    rw [hcol]
    exact cellGet_bumpCell_other _ _ _ _ _ h
  · rw [hth, findTh_updateThread_self, length_bumpCell]
  · rw [hth, findTh_updateThread_self]
    exact cellGet_bumpCell_self _ _ _ hwfth hr
  · intro c r h
    rw [hth, findTh_updateThread_self]
    exact cellGet_bumpCell_other _ _ _ _ _ h
  · exact ⟨by decide, by decide, by decide, by decide, by decide, by decide⟩

/-- Witness for C4 at the initial state: the first timestamp latches the
epoch, and the cell of column 0 row 0 becomes 1. -/
theorem record_timestamps_bucketing_witness :
    (FlamescopeTab.default.recordOne "t" 5).epoch_ns = some 5 ∧
    cellGet (FlamescopeTab.default.recordOne "t" 5).columns 0 0 = 1 :=
  have h := record_timestamps_bucketing FlamescopeTab.default "t" 5
    (by simp [FlamescopeTab.default]) (by simp [FlamescopeTab.default, findTh])
  ⟨h.1.1, h.1.2.2.1⟩

/-! Claim C5. -/

/-- Sequence of `record_timestamps` calls applied from the initial
state. -/
def applyBatches (batches : List (List (String × List Nat))) : FlamescopeTab :=
  batches.foldl FlamescopeTab.record_timestamps FlamescopeTab.default

/-- C5: after any sequence of `record_timestamps` calls, the sum of all
cells of the global matrix equals the total number of timestamps ever
recorded, and for each thread the sum of its matrix equals the number of
timestamps recorded for it. -/
theorem flamescope_total_invariant (batches : List (List (String × List Nat))) :
    totalCells (applyBatches batches).columns = (batches.map batchCount).sum ∧
    ∀ th, totalCells (findTh (applyBatches batches).threads th) =
      (batches.map (batchCountFor th)).sum := by
  suffices h : ∀ st, WFtab st →
      totalCells (batches.foldl FlamescopeTab.record_timestamps st).columns =
        totalCells st.columns + (batches.map batchCount).sum ∧
      ∀ th, totalCells
          (findTh (batches.foldl FlamescopeTab.record_timestamps st).threads
            th) =
        totalCells (findTh st.threads th) +
          (batches.map (batchCountFor th)).sum by
    have hd : WFtab FlamescopeTab.default :=
      ⟨by simp [FlamescopeTab.default], by simp [FlamescopeTab.default]⟩
    obtain ⟨h1, h2⟩ := h FlamescopeTab.default hd
    constructor
    · rw [applyBatches, h1]
      simp [FlamescopeTab.default, totalCells]
    · intro th
      rw [applyBatches, h2 th]
      simp [FlamescopeTab.default, findTh, totalCells]
  induction batches with
  | nil =>
    intro st hwf
    simp
  | cons b batches ih =>
    intro st hwf
    obtain ⟨w1, t1, t2⟩ := record_timestamps_invariants b st hwf
    obtain ⟨g1, g2⟩ := ih (st.record_timestamps b) w1
    constructor
    · simp only [List.foldl_cons, List.map_cons, List.sum_cons]
      rw [g1, t1]
      omega
    · intro th
      simp only [List.foldl_cons, List.map_cons, List.sum_cons]
      rw [g2 th, t2 th]
      omega

/-! Claims C3 and C10. -/

/-- Timestamps recorded so far for one thread. -/
def lookupTT (l : List (String × List Nat)) (k : String) : List Nat :=
  ((l.find? (fun e => e.1 == k)).map (·.2)).getD []

theorem lookupTT_appendTimestamps_self (l : List (String × List Nat))
    (k : String) (ts : List Nat) :
    lookupTT (appendTimestamps l k ts) k = lookupTT l k ++ ts := by
  induction l with
  | nil => simp [appendTimestamps, lookupTT]
  | cons p l ih =>
    obtain ⟨k0, v0⟩ := p
    by_cases h : k0 = k
    · subst h
      simp [appendTimestamps, lookupTT, List.find?_cons]
    · have hb : (k0 == k) = false := by simp [h]
      simp only [appendTimestamps, if_neg h, lookupTT, List.find?_cons,
        hb] at ih ⊢
      exact ih

/-- Sample value as the spec states it: the number of timestamps when
timestamps are present, otherwise `max(1, Σ values)` when values are
present, otherwise 1. -/
def specSampleValue (sample : Sample) : Int :=
  if ¬ sample.timestamps_unix_nano.isEmpty then
    (sample.timestamps_unix_nano.length : Int)
  else if ¬ sample.values.isEmpty then max 1 sample.values.sum
  else 1

/-- C3: for a sample whose resolved stack is non-empty, the sample value
follows the timestamp-count / `max(1, Σ values)` / 1 cascade, timestamps
are appended to the entry of the stack's thread frame, and `sample_count`
is incremented by the value, not by one. -/
theorem process_sample_value_spec (dict : ProfilesDictionary)
    (location_cache : List String) (st : ExportState) (sample : Sample)
    (hne : (lookupStack st.stack_cache sample.stack_index).getD
      (build_stack dict location_cache sample) ≠ []) :
    (process_sample dict location_cache st sample).sample_count =
      st.sample_count + (specSampleValue sample).toNat ∧
    1 ≤ specSampleValue sample ∧
    (¬ sample.timestamps_unix_nano.isEmpty →
      specSampleValue sample = (sample.timestamps_unix_nano.length : Int) ∧
      lookupTT (process_sample dict location_cache st sample).thread_timestamps
          (((lookupStack st.stack_cache sample.stack_index).getD
            (build_stack dict location_cache sample)).headD "") =
        lookupTT st.thread_timestamps
          (((lookupStack st.stack_cache sample.stack_index).getD
            (build_stack dict location_cache sample)).headD "") ++
          sample.timestamps_unix_nano) ∧
    (sample.timestamps_unix_nano.isEmpty → ¬ sample.values.isEmpty →
      specSampleValue sample = max 1 sample.values.sum ∧
      (process_sample dict location_cache st sample).thread_timestamps =
        st.thread_timestamps) ∧
    (sample.timestamps_unix_nano.isEmpty → sample.values.isEmpty →
      specSampleValue sample = 1 ∧
      (process_sample dict location_cache st sample).thread_timestamps =
        st.thread_timestamps) := by
  have hne2 : ((lookupStack st.stack_cache sample.stack_index).getD
      (build_stack dict location_cache sample)).isEmpty = false := by
    rcases List.exists_cons_of_ne_nil hne with ⟨a, rest, hh⟩
    rw [hh]
    rfl
  by_cases hts : sample.timestamps_unix_nano.isEmpty
  · by_cases hv : sample.values.isEmpty
    · refine ⟨?_, ?_, ?_, ?_, ?_⟩ <;>
        simp [process_sample, specSampleValue, hts, hv, hne2]
    · refine ⟨?_, ?_, ?_, ?_, ?_⟩ <;>
        simp [process_sample, specSampleValue, hts, hv, hne2, max_comm] <;>
        omega
  · have hne3 : sample.timestamps_unix_nano ≠ [] := by
      intro hh
      apply hts
      rw [hh]
      rfl
    have hlen : 1 ≤ sample.timestamps_unix_nano.length := by
      rcases List.exists_cons_of_ne_nil hne3 with ⟨a, rest, hh⟩
      rw [hh]
      simp
    refine ⟨?_, ?_, ?_, ?_, ?_⟩ <;>
      simp [process_sample, specSampleValue, hts, hne2,
        lookupTT_appendTimestamps_self] <;>
      omega

/-- C10: a sample whose `stack_index` is already memoized reuses the
cached collapsed stack without touching the cache — its weight is added
for the cached stack and its timestamps land on the cached stack's head
(the thread frame computed from the first sample with this index) — while
a cache miss stores the stack built from the current sample, whose head
is that sample's own resolved thread name. -/
theorem stack_cache_memoization (dict : ProfilesDictionary)
    (location_cache : List String) (st : ExportState) (sample : Sample)
    (s0 : List String)
    (hhit : lookupStack st.stack_cache sample.stack_index = some s0) :
    (process_sample dict location_cache st sample).stack_cache =
      st.stack_cache ∧
    (s0 = [] → process_sample dict location_cache st sample = st) ∧
    (s0 ≠ [] →
      (process_sample dict location_cache st sample).flamegraph =
        st.flamegraph.add_stack s0 (specSampleValue sample) ∧
      (¬ sample.timestamps_unix_nano.isEmpty →
        lookupTT
            (process_sample dict location_cache st sample).thread_timestamps
            (s0.headD "") =
          lookupTT st.thread_timestamps (s0.headD "") ++
            sample.timestamps_unix_nano)) ∧
    (∀ sample2 : Sample,
      lookupStack st.stack_cache sample2.stack_index = none →
      (process_sample dict location_cache st sample2).stack_cache =
        st.stack_cache ++
          [(sample2.stack_index, build_stack dict location_cache sample2)] ∧
      (build_stack dict location_cache sample2 = [] ∨
        (build_stack dict location_cache sample2).headD "" =
          resolve_thread_name sample2 dict)) := by
  have hmiss : ∀ sample2 : Sample,
      lookupStack st.stack_cache sample2.stack_index = none →
      (process_sample dict location_cache st sample2).stack_cache =
        st.stack_cache ++
          [(sample2.stack_index, build_stack dict location_cache sample2)] ∧
      (build_stack dict location_cache sample2 = [] ∨
        (build_stack dict location_cache sample2).headD "" =
          resolve_thread_name sample2 dict) := by
    intro sample2 hnone
    constructor
    · by_cases hne : (build_stack dict location_cache sample2).isEmpty <;>
        simp [process_sample, hnone, hne]
    · by_cases h1 : asUsize sample2.stack_index = 0 ∨
          dict.stack_table.length ≤ asUsize sample2.stack_index
      · left
        simp [build_stack, h1]
      · cases hget : dict.stack_table.get? (asUsize sample2.stack_index) with
        | none =>
          left
          rw [List.get?_eq_getElem?] at hget
          simp [build_stack, h1, hget]
        | some stk =>
          right
          rw [List.get?_eq_getElem?] at hget
          simp [build_stack, h1, hget]
  refine ⟨?_, ?_, ?_, hmiss⟩
  · by_cases hne : s0.isEmpty <;>
      by_cases hts : sample.timestamps_unix_nano.isEmpty <;>
      simp [process_sample, hhit, hne, hts]
  · intro h0
    subst h0
    simp [process_sample, hhit]
  · intro h0
    have hne2 : s0.isEmpty = false := by
      rcases List.exists_cons_of_ne_nil h0 with ⟨a, rest, hh⟩
      rw [hh]
      rfl
    by_cases hts : sample.timestamps_unix_nano.isEmpty
    · by_cases hv : sample.values.isEmpty <;>
        refine ⟨?_, ?_⟩ <;>
        simp [process_sample, specSampleValue, hhit, hne2, hts, hv, max_comm]
    · refine ⟨?_, ?_⟩ <;>
        simp [process_sample, specSampleValue, hhit, hne2, hts,
          lookupTT_appendTimestamps_self]

/-- Example dictionary-free state for the C3 and C10 witnesses: the stack
cache already holds a collapsed stack for index 1. -/
def exExportState : ExportState :=
  { flamegraph := FlameGraph.new, stack_cache := [(1, ["t", "f"])]
    sample_count := 3, thread_timestamps := [] }

/-- Empty dictionary for the C3 and C10 witnesses. -/
def exDictEmpty : ProfilesDictionary := ⟨[], [], [], [], [], []⟩

/-- Example sample for the C3 and C10 witnesses. -/
def exSample : Sample := ⟨1, [10], [], []⟩

/-- Witness for C3: the cached non-empty stack makes the sample count
grow by the full value. -/
theorem process_sample_value_spec_witness :
    (process_sample exDictEmpty [] exExportState exSample).sample_count =
      exExportState.sample_count + (specSampleValue exSample).toNat :=
  (process_sample_value_spec exDictEmpty [] exExportState exSample
    (by decide)).1

/-- Witness for C10: processing a second sample with the memoized stack
index leaves the cache unchanged. -/
theorem stack_cache_memoization_witness :
    (process_sample exDictEmpty [] exExportState exSample).stack_cache =
      exExportState.stack_cache :=
  (stack_cache_memoization exDictEmpty [] exExportState exSample ["t", "f"]
    (by decide)).1

/-! Claim C7. -/

theorem mem_enum_iff {α : Type} (l : List α) (i : Nat) (a : α) :
    (i, a) ∈ l.enum ↔ l.get? i = some a := by
  constructor
  · intro h
    obtain ⟨hi, ha⟩ := List.mem_enum h
    rw [List.get?_eq_getElem?, List.getElem?_eq_getElem hi, ha]
  · intro h
    rw [List.get?_eq_getElem?] at h
    have hi : i < l.length := by
      by_contra hc
      rw [List.getElem?_eq_none (by omega)] at h
      exact Option.noConfusion h
    have ha : a = l[i] := by
      rw [List.getElem?_eq_getElem hi] at h
      exact (Option.some_inj.mp h).symm
    subst ha
    have hlen : i < l.enum.length := by
      rw [List.enum_length]
      exact hi
    have hget := List.getElem_enum l i hlen
    rw [← hget]
    exact List.getElem_mem hlen

/-- Zoomed example tab for the C7 counterexample: one thread `alpha`
with one function child `beta`; the view is zoomed onto `alpha` and the
search overlay is open with an empty query. -/
def exZoomTab : FlamegraphTab :=
  { graph := ⟨.mk "" 0 1 [.mk "alpha" 0 1 [.mk "beta" 1 1 []]]⟩
    frozen := false, profiles_received := 0, samples_received := 0
    scroll_y := 0, cursor_path := [], zoom_path := ["alpha"]
    selection := ⟨"", 0, 0, 0.0, 0⟩
    search := { active := true, input := "", «matches» := [], cursor := 0 } }

/-- C7 counterexample: with `zoom_path = ["alpha"]` the refreshed match
list is the graph root's thread level `[("alpha", 0)]`, while the
first-level children of the zoomed root — which the claim says the
matches are drawn from — are `["beta"]`. -/
theorem refresh_search_zoom_counterexample :
    (exZoomTab.refresh_search).search.«matches» = [("alpha", 0)] ∧
    (get_zoom_node exZoomTab.graph.root exZoomTab.zoom_path).children.map
      FlameNode.name = ["beta"] ∧
    ((get_zoom_node exZoomTab.graph.root exZoomTab.zoom_path).children.enum.filter
        (fun p => strIsEmpty (strToLower exZoomTab.search.input) ||
          strContainsSub (strToLower p.2.name)
            (strToLower exZoomTab.search.input))).map
        (fun p => (p.2.name, p.1)) = [("beta", 0)] ∧
    (exZoomTab.refresh_search).search.«matches» ≠ [("beta", 0)] := by
  refine ⟨?_, ?_, ?_, ?_⟩ <;> decide

/-- C7 amended: the match list is computed over the first-level children
(threads) of the graph root, irrespective of `zoom_path`: `(name, i)` is
a match iff the root's child `i` is named `name` and its lowercased name
contains the lowercased query (every child matches when the query is
empty); pressing Enter on the selected match sets `zoom_path` to exactly
`[name]` and closes the overlay. -/
theorem refresh_search_spec (t : FlamegraphTab) (name : String) (i : Nat) :
    ((name, i) ∈ (t.refresh_search).search.«matches» ↔
      ∃ c, t.graph.root.children.get? i = some c ∧ c.name = name ∧
        (strIsEmpty (strToLower t.search.input) = true ∨
          strContainsSub (strToLower c.name) (strToLower t.search.input) =
            true)) ∧
    (t.search.«matches».get? t.search.cursor = some (name, i) →
      (t.handle_search_key KeyCode.enter).zoom_path = [name] ∧
      (t.handle_search_key KeyCode.enter).search.active = false) := by
  constructor
  · unfold FlamegraphTab.refresh_search
    simp only [List.mem_map, List.mem_filter]
    constructor
    · rintro ⟨⟨j, c⟩, ⟨hmem, hp⟩, heq⟩
      obtain ⟨hname, hidx⟩ := Prod.mk.injEq .. ▸ heq
      subst hidx
      refine ⟨c, (mem_enum_iff _ _ _).mp hmem, hname, ?_⟩
      simpa using hp
    · rintro ⟨c, hget, hname, hq⟩
      refine ⟨(i, c), ⟨(mem_enum_iff _ _ _).mpr hget, ?_⟩, by simp [hname]⟩
      simpa using hq
  · intro hcur
    unfold FlamegraphTab.handle_search_key
    rw [hcur]
    exact ⟨rfl, rfl⟩

/-- Concrete tab for the C7 witness: the overlay holds one match under
the cursor. -/
def exMatchTab : FlamegraphTab :=
  { graph := ⟨.mk "" 0 1 [.mk "alpha" 0 1 []]⟩
    frozen := false, profiles_received := 0, samples_received := 0
    scroll_y := 0, cursor_path := [0], zoom_path := []
    selection := ⟨"", 0, 0, 0.0, 0⟩
    search := { active := true, input := "", «matches» := [("alpha", 0)]
                cursor := 0 } }

/-- Witness for the amended C7: pressing Enter on the selected match
zooms onto exactly that thread. -/
theorem refresh_search_spec_witness :
    (exMatchTab.handle_search_key KeyCode.enter).zoom_path = ["alpha"] ∧
    (exMatchTab.handle_search_key KeyCode.enter).search.active = false :=
  (refresh_search_spec exMatchTab "alpha" 0).2 (by decide)

/-! Claim C8. -/

/-- Directory consulted by path completion, as the spec states the three
branches. -/
def completionDir (input : String) : String :=
  if strIsEmpty input then "."
  else if strEndsWith input "/" then input
  else rustParent input

/-- Prefix filter applied by path completion, as the spec states it. -/
def completionPre (input : String) : String :=
  if strIsEmpty input then ""
  else if strEndsWith input "/" then ""
  else (rustFileName input).getD ""

/-- Decidable cleanliness of a completion input: empty, slash-terminated,
or made of components that are non-empty and neither `.` nor `..`; on
this class the embedded `Path::parent` and `Path::file_name` agree with
Rust's component-skipping semantics. -/
def pathCleanB (s : String) : Bool :=
  strIsEmpty s || strEndsWith s "/" ||
    (match splitSlash s.data with
     | [] => true
     | c :: rest =>
       (c.isEmpty || (c != ['.'] && c != ['.', '.'])) &&
         rest.all (fun x => !x.isEmpty && x != ['.'] && x != ['.', '.']))

theorem mem_list_dir_entries (fsys : FileSystem) (dir pre x : String) :
    x ∈ list_dir_entries fsys dir pre ↔
      ∃ e ∈ (fsys dir).getD [],
        (¬ strIsEmpty (strToLower pre) = true →
          strStartsWith (strToLower e.name) (strToLower pre) = true) ∧
        ¬ (strStartsWith e.name "." = true ∧ strIsEmpty pre = true) ∧
        x = (if e.is_dir then joinPath dir e.name ++ "/"
             else joinPath dir e.name) := by
  unfold list_dir_entries
  cases hfs : fsys dir with
  | none => simp
  | some entries =>
    simp only [Option.getD_some]
    rw [List.mem_mergeSort, List.mem_filterMap]
    constructor
    · rintro ⟨e, he, hsome⟩
      by_cases h1 : ¬ strIsEmpty (strToLower pre) = true ∧
          ¬ strStartsWith (strToLower e.name) (strToLower pre) = true
      · rw [if_pos h1] at hsome
        exact absurd hsome (by simp)
      · rw [if_neg h1] at hsome
        by_cases h2 : strStartsWith e.name "." = true ∧ strIsEmpty pre = true
        · rw [if_pos h2] at hsome
          exact absurd hsome (by simp)
        · rw [if_neg h2] at hsome
          rw [Option.some_inj] at hsome
          push_neg at h1
          exact ⟨e, he, fun hp => h1 hp, h2, hsome.symm⟩
    · rintro ⟨e, he, hpre, hdot, rfl⟩
      refine ⟨e, he, ?_⟩
      have h1 : ¬ (¬ strIsEmpty (strToLower pre) = true ∧
          ¬ strStartsWith (strToLower e.name) (strToLower pre) = true) := by
        push_neg
        exact fun hp => hpre hp
      rw [if_neg h1, if_neg hdot]

theorem sorted_list_dir_entries (fsys : FileSystem) (dir pre : String) :
    List.Pairwise (fun a b : String => a.data ≤ b.data)
      (list_dir_entries fsys dir pre) := by
  unfold list_dir_entries
  cases hfs : fsys dir with
  | none => simp
  | some entries =>
    have htrans : ∀ a b c : String, decide (a.data ≤ b.data) = true →
        decide (b.data ≤ c.data) = true → decide (a.data ≤ c.data) = true := by
      intro a b c hab hbc
      exact decide_eq_true
        (le_trans (of_decide_eq_true hab) (of_decide_eq_true hbc))
    have htotal : ∀ a b : String, (decide (a.data ≤ b.data) ||
        decide (b.data ≤ a.data)) = true := by
      intro a b
      rcases le_total a.data b.data with h | h
      · simp [h]
      · simp [h]
    have hs := List.sorted_mergeSort htrans htotal
      (entries.filterMap (fun e =>
        if ¬ strIsEmpty (strToLower pre) ∧
            ¬ strStartsWith (strToLower e.name) (strToLower pre) then none
        else if strStartsWith e.name "." ∧ strIsEmpty pre then none
        else some (if e.is_dir then joinPath dir e.name ++ "/"
                   else joinPath dir e.name)))
    exact hs.imp (fun h => of_decide_eq_true h)

/-- C8: path completion consults the current directory on empty input,
the named directory on a slash-terminated input, and otherwise the
parent of the input filtered by the final component as a case-insensitive
prefix; dotfiles are hidden exactly when the prefix is empty, directories
gain a trailing slash, results come out ascending, and an unreadable
directory yields the empty list. -/
theorem compute_path_completions_spec (fsys : FileSystem) (input : String)
    (hclean : pathCleanB input = true) :
    (fsys (completionDir input) = none →
      compute_path_completions fsys input = []) ∧
    (∀ x, x ∈ compute_path_completions fsys input ↔
      ∃ e ∈ (fsys (completionDir input)).getD [],
        (¬ strIsEmpty (strToLower (completionPre input)) = true →
          strStartsWith (strToLower e.name)
            (strToLower (completionPre input)) = true) ∧
        ¬ (strStartsWith e.name "." = true ∧
            strIsEmpty (completionPre input) = true) ∧
        x = (if e.is_dir then joinPath (completionDir input) e.name ++ "/"
             else joinPath (completionDir input) e.name)) ∧
    List.Pairwise (fun a b : String => a.data ≤ b.data)
      (compute_path_completions fsys input) := by
  have key : compute_path_completions fsys input =
      list_dir_entries fsys (completionDir input) (completionPre input) := by
    unfold compute_path_completions completionDir completionPre
    split_ifs <;> rfl
  refine ⟨?_, ?_, ?_⟩
  · intro h
    rw [key]
    unfold list_dir_entries
    rw [h]
  · intro x
    rw [key]
    exact mem_list_dir_entries fsys (completionDir input)
      (completionPre input) x
  · rw [key]
    exact sorted_list_dir_entries fsys (completionDir input)
      (completionPre input)

/-- Concrete filesystem for the C8 witness: the current directory holds
a file, a dotfile, and a directory. -/
def exFs : FileSystem := fun d =>
  if d = "." then
    some [⟨"beta", false⟩, ⟨".hidden", false⟩, ⟨"alpha", true⟩]
  else none

/-- Witness for C8: on empty input, the directory entry appears with its
trailing slash and the output is sorted. -/
theorem compute_path_completions_spec_witness :
    "./alpha/" ∈ compute_path_completions exFs "" ∧
    List.Pairwise (fun a b : String => a.data ≤ b.data)
      (compute_path_completions exFs "") :=
  have h := compute_path_completions_spec exFs "" (by decide)
  ⟨(h.2.1 "./alpha/").mpr
      ⟨⟨"alpha", true⟩, by decide, by decide, by decide, by decide⟩,
    h.2.2⟩

/-! Claim C1: order lemmas for range keys and characterization of the
stored `ranges` partition. -/

/-- Strict lexicographic order on range keys as a proposition. -/
def keyLtP (a b : RangeKey) : Prop :=
  a.file_id < b.file_id ∨
    (a.file_id = b.file_id ∧
      (a.va_start < b.va_start ∨
        (a.va_start = b.va_start ∧ a.depth < b.depth)))

theorem keyLt_iff (a b : RangeKey) : RangeKey.lt a b = true ↔ keyLtP a b := by
  simp [RangeKey.lt, keyLtP]

theorem keyLe_iff (a b : RangeKey) :
    RangeKey.le a b = true ↔ keyLtP a b ∨ a = b := by
  simp [RangeKey.le, keyLt_iff]

theorem keyLtP_irrefl (a : RangeKey) : ¬ keyLtP a a := by
  obtain ⟨f, va, d⟩ := a
  simp [keyLtP]

theorem keyLtP_trans {a b c : RangeKey} (h1 : keyLtP a b) (h2 : keyLtP b c) :
    keyLtP a c := by
  obtain ⟨f1, v1, d1⟩ := a
  obtain ⟨f2, v2, d2⟩ := b
  obtain ⟨f3, v3, d3⟩ := c
  simp only [keyLtP] at h1 h2 ⊢
  omega

theorem keyLtP_asymm {a b : RangeKey} (h1 : keyLtP a b) : ¬ keyLtP b a := by
  obtain ⟨f1, v1, d1⟩ := a
  obtain ⟨f2, v2, d2⟩ := b
  simp only [keyLtP] at h1 ⊢
  omega

theorem keyLtP_trichotomy (a b : RangeKey) :
    keyLtP a b ∨ a = b ∨ keyLtP b a := by
  obtain ⟨f1, v1, d1⟩ := a
  obtain ⟨f2, v2, d2⟩ := b
  simp only [keyLtP, RangeKey.mk.injEq]
  omega

/-- Strict ascending key order of a partition's entry list. -/
def SortedKeys (l : List (RangeKey × RangeValue)) : Prop :=
  l.Pairwise (fun e1 e2 => keyLtP e1.1 e2.1)

theorem insertRange_mem (l : List (RangeKey × RangeValue)) (k : RangeKey)
    (v : RangeValue) (x : RangeKey × RangeValue) (hs : SortedKeys l) :
    x ∈ insertRange l k v ↔ x = (k, v) ∨ (x ∈ l ∧ x.1 ≠ k) := by
  induction l with
  | nil => simp [insertRange]
  | cons e t ih =>
    obtain ⟨k0, v0⟩ := e
    obtain ⟨hhead, htail⟩ := List.pairwise_cons.mp hs
    by_cases hlt : RangeKey.lt k k0
    · have hltP := (keyLt_iff k k0).mp hlt
      rw [show insertRange ((k0, v0) :: t) k v = (k, v) :: (k0, v0) :: t from
        by simp [insertRange, hlt]]
      constructor
      · intro hx
        rcases List.mem_cons.mp hx with rfl | hx
        · exact Or.inl rfl
        · right
          refine ⟨hx, ?_⟩
          rcases List.mem_cons.mp hx with rfl | hx2
          · exact fun hk => keyLtP_irrefl k (hk ▸ hltP)
          · intro hk
            have h2 : keyLtP k x.1 := keyLtP_trans hltP (hhead _ hx2)
            rw [hk] at h2
            exact keyLtP_irrefl k h2
      · rintro (rfl | ⟨hx, _⟩)
        · exact List.mem_cons_self _ _
        · exact List.mem_cons_of_mem _ hx
    · by_cases heq : k = k0
      · subst heq
        rw [show insertRange ((k, v0) :: t) k v = (k, v) :: t from by
          simp [insertRange, hlt]]
        constructor
        · intro hx
          rcases List.mem_cons.mp hx with rfl | hx
          · exact Or.inl rfl
          · refine Or.inr ⟨List.mem_cons_of_mem _ hx, ?_⟩
            intro hk
            have h2 : keyLtP k x.1 := hhead _ hx
            rw [hk] at h2
            exact keyLtP_irrefl k h2
        · rintro (rfl | ⟨hx, hne⟩)
          · exact List.mem_cons_self _ _
          · rcases List.mem_cons.mp hx with rfl | hx2
            · exact absurd rfl hne
            · exact List.mem_cons_of_mem _ hx2
      · rw [show insertRange ((k0, v0) :: t) k v =
            (k0, v0) :: insertRange t k v from by simp [insertRange, hlt, heq]]
        constructor
        · intro hx
          rcases List.mem_cons.mp hx with rfl | hx
          · exact Or.inr ⟨List.mem_cons_self _ _, fun hk => heq hk.symm⟩
          · rcases (ih htail).mp hx with rfl | ⟨hx2, hne⟩
            · exact Or.inl rfl
            · exact Or.inr ⟨List.mem_cons_of_mem _ hx2, hne⟩
        · rintro (rfl | ⟨hx, hne⟩)
          · exact List.mem_cons_of_mem _ ((ih htail).mpr (Or.inl rfl))
          · rcases List.mem_cons.mp hx with rfl | hx2
            · exact List.mem_cons_self _ _
            · exact List.mem_cons_of_mem _ ((ih htail).mpr (Or.inr ⟨hx2, hne⟩))

theorem insertRange_sorted (l : List (RangeKey × RangeValue)) (k : RangeKey)
    (v : RangeValue) (hs : SortedKeys l) : SortedKeys (insertRange l k v) := by
  induction l with
  | nil => simp [insertRange, SortedKeys]
  | cons e t ih =>
    obtain ⟨k0, v0⟩ := e
    obtain ⟨hhead, htail⟩ := List.pairwise_cons.mp hs
    by_cases hlt : RangeKey.lt k k0
    · have hltP := (keyLt_iff k k0).mp hlt
      rw [show insertRange ((k0, v0) :: t) k v = (k, v) :: (k0, v0) :: t from
        by simp [insertRange, hlt]]
      refine List.pairwise_cons.mpr ⟨?_, hs⟩
      intro y hy
      rcases List.mem_cons.mp hy with rfl | hy2
      · exact hltP
      · exact keyLtP_trans hltP (hhead _ hy2)
    · by_cases heq : k = k0
      · subst heq
        rw [show insertRange ((k, v0) :: t) k v = (k, v) :: t from by
          simp [insertRange, hlt]]
        exact List.pairwise_cons.mpr ⟨hhead, htail⟩
      · rw [show insertRange ((k0, v0) :: t) k v =
            (k0, v0) :: insertRange t k v from by simp [insertRange, hlt, heq]]
        have hk0k : keyLtP k0 k := by
          rcases keyLtP_trichotomy k k0 with h | h | h
          · exact absurd ((keyLt_iff k k0).mpr h) hlt
          · exact absurd h heq
          · exact h
        refine List.pairwise_cons.mpr ⟨?_, ih htail⟩
        intro y hy
        rcases (insertRange_mem t k v y htail).mp hy with rfl | ⟨hy2, _⟩
        · exact hk0k
        · exact hhead y hy2

/-- Key of the entry written for one `SymRange` of file `fid`. -/
def entryKey (fid : Nat) (r : SymRange) : RangeKey :=
  RangeKey.mk fid r.va_start r.depth

/-- Entry written for one `SymRange` of file `fid`. -/
def entryOf (fid : Nat) (r : SymRange) : RangeKey × RangeValue :=
  (entryKey fid r, RangeValue.from_range r)

theorem storeRanges_char (fid : Nat) (rs : List SymRange) :
    ∀ acc, SortedKeys acc →
    (∀ r ∈ rs, ∀ x ∈ acc, x.1 ≠ entryKey fid r) →
    List.Pairwise (fun r1 r2 : SymRange =>
      (r1.va_start, r1.depth) ≠ (r2.va_start, r2.depth)) rs →
    SortedKeys (rs.foldl (fun acc r =>
      insertRange acc (RangeKey.mk fid r.va_start r.depth)
        (RangeValue.from_range r)) acc) ∧
    (∀ x, x ∈ rs.foldl (fun acc r =>
        insertRange acc (RangeKey.mk fid r.va_start r.depth)
          (RangeValue.from_range r)) acc ↔
      x ∈ acc ∨ ∃ r ∈ rs, x = entryOf fid r) := by
  induction rs with
  | nil =>
    intro acc hs _ _
    exact ⟨hs, by simp⟩
  | cons r rs ih =>
    intro acc hs hclash hpair
    obtain ⟨hph, hpt⟩ := List.pairwise_cons.mp hpair
    have hs1 : SortedKeys (insertRange acc (entryKey fid r)
        (RangeValue.from_range r)) := insertRange_sorted _ _ _ hs
    have hclash1 : ∀ r2 ∈ rs, ∀ x ∈ insertRange acc (entryKey fid r)
        (RangeValue.from_range r), x.1 ≠ entryKey fid r2 := by
      intro r2 hr2 x hx
      rcases (insertRange_mem acc _ _ x hs).mp hx with rfl | ⟨hx2, _⟩
      · intro hk
        simp only [entryKey, RangeKey.mk.injEq] at hk
        exact hph r2 hr2 (Prod.ext hk.2.1 hk.2.2)
      · exact hclash r2 (List.mem_cons_of_mem _ hr2) x hx2
    obtain ⟨g1, g2⟩ := ih _ hs1 hclash1 hpt
    refine ⟨g1, ?_⟩
    intro x
    rw [List.foldl_cons]
    rw [show (RangeKey.mk fid r.va_start r.depth) = entryKey fid r from rfl]
    rw [g2 x, insertRange_mem acc _ _ x hs]
    constructor
    · rintro ((rfl | ⟨hx, _⟩) | ⟨r2, hr2, rfl⟩)
      · exact Or.inr ⟨r, List.mem_cons_self _ _, rfl⟩
      · exact Or.inl hx
      · exact Or.inr ⟨r2, List.mem_cons_of_mem _ hr2, rfl⟩
    · rintro (hx | ⟨r2, hr2, rfl⟩)
      · exact Or.inl (Or.inr ⟨hx, hclash r (List.mem_cons_self _ _) x hx⟩)
      · rcases List.mem_cons.mp hr2 with rfl | hr2
        · exact Or.inl (Or.inl rfl)
        · exact Or.inr ⟨r2, hr2, rfl⟩

/-! Claim C1: behaviour of the reverse-scan loop. -/

theorem lookupLoop_no_hit (st : SymbolStore) (fid addr : Nat)
    (L : List (RangeKey × RangeValue))
    (h : ∀ e ∈ L, ¬ (e.1.va_start ≤ addr ∧
      addr < min (e.1.va_start + e.2.length) u64Max)) :
    lookupLoop st fid addr L = [] := by
  induction L with
  | nil => rfl
  | cons e rest ih =>
    obtain ⟨k, v⟩ := e
    have hh := h (k, v) (List.mem_cons_self _ _)
    simp only [lookupLoop]
    simp only [if_neg hh]
    split
    · rfl
    · rw [List.nil_append]
      exact ih (fun e he => h e (List.mem_cons_of_mem _ he))

theorem lookupLoop_split (st : SymbolStore) (fid addr : Nat)
    (P Q : List (RangeKey × RangeValue)) (e0 : RangeKey × RangeValue)
    (hP : ∀ e ∈ P, e.1.depth ≠ 0) (he0 : e0.1.depth = 0) :
    lookupLoop st fid addr (P ++ e0 :: Q) =
      (P.filter (fun e => decide (e.1.va_start ≤ addr ∧
          addr < min (e.1.va_start + e.2.length) u64Max))).map
        (fun e => ResolvedFrame.mk (st.resolve_string fid e.2.func_ref)
          e.1.depth) ++
      (if e0.1.va_start ≤ addr ∧
          addr < min (e0.1.va_start + e0.2.length) u64Max
       then [ResolvedFrame.mk (st.resolve_string fid e0.2.func_ref)
          e0.1.depth]
       else []) := by
  induction P with
  | nil =>
    obtain ⟨k0, v0⟩ := e0
    simp only [List.nil_append, lookupLoop, List.filter_nil, List.map_nil]
    rw [if_pos he0]
  | cons p P ih =>
    obtain ⟨k, v⟩ := p
    have hd := hP (k, v) (List.mem_cons_self _ _)
    simp only [List.cons_append, lookupLoop, List.append_eq]
    rw [if_neg hd]
    rw [ih (fun e he => hP e (List.mem_cons_of_mem _ he))]
    by_cases hh : k.va_start ≤ addr ∧ addr < min (k.va_start + v.length) u64Max
    · rw [if_pos hh, List.filter_cons_of_pos (by exact decide_eq_true hh)]
      simp
    · rw [if_neg hh, List.filter_cons_of_neg (by simpa using hh)]
      simp

/-! Claim C1: statement-level notions and the main theorem. -/

/-- Containment of an address in a range's interval, the spec's
`[va_start, va_start + length)`. -/
def Contains (r : SymRange) (a : Nat) : Prop :=
  r.va_start ≤ a ∧ a < r.va_start + r.length

instance (r : SymRange) (a : Nat) : Decidable (Contains r a) :=
  inferInstanceAs (Decidable (_ ∧ _))

/-- Range invariant as the spec states it: any covered address lies in
exactly one depth-0 range, and every range containing it shares that
depth-0 range's interval (inline ranges over the same interval). -/
def covInv (rs : List SymRange) : Prop :=
  ∀ a : Nat, (∃ r ∈ rs, Contains r a) →
    ∃ r0 ∈ rs, r0.depth = 0 ∧ Contains r0 a ∧
      (∀ rp ∈ rs, rp.depth = 0 → Contains rp a → rp = r0) ∧
      (∀ rp ∈ rs, Contains rp a →
        rp.va_start = r0.va_start ∧ rp.length = r0.length)

/-- Machine-width well-formedness of extractor output (`u64` addresses,
`u32` lengths, `u16` depths, no interval wrapping past `2^64`). -/
def wfRange (r : SymRange) : Prop :=
  r.va_start < 2 ^ 64 ∧ r.length < 2 ^ 32 ∧ r.depth < 2 ^ 16 ∧
    r.va_start + r.length < 2 ^ 64

instance (r : SymRange) : Decidable (wfRange r) :=
  inferInstanceAs (Decidable (_ ∧ _ ∧ _ ∧ _))

/-- Depth order used to state the expected lookup output. -/
def depthLe (r1 r2 : SymRange) : Bool := decide (r1.depth ≤ r2.depth)

/-- Frame a stored range resolves to through the stored string table. -/
def frameOfRange (st : SymbolStore) (fid : Nat) (r : SymRange) :
    ResolvedFrame :=
  ⟨st.resolve_string fid r.func, r.depth⟩

theorem scan_reverse_mem (fid addr : Nat)
    (stored : List (RangeKey × RangeValue)) (rs : List SymRange)
    (hmem : ∀ x, x ∈ stored ↔ ∃ r ∈ rs, x = entryOf fid r)
    (hdep : ∀ r ∈ rs, r.depth < 2 ^ 16) :
    ∀ x, x ∈ (rangeScan stored ⟨fid, 0, 0⟩ ⟨fid, addr, 2 ^ 16 - 1⟩).reverse ↔
      ∃ r ∈ rs, x = entryOf fid r ∧ r.va_start ≤ addr := by
  intro x
  rw [List.mem_reverse]
  unfold rangeScan
  rw [List.mem_filter, Bool.and_eq_true, keyLe_iff, keyLe_iff, hmem]
  constructor
  · rintro ⟨⟨r, hr, rfl⟩, _, hhi⟩
    refine ⟨r, hr, rfl, ?_⟩
    simp only [entryOf, entryKey, keyLtP, RangeKey.mk.injEq, eq_self_iff_true,
      true_and] at hhi
    omega
  · rintro ⟨r, hr, rfl, hva⟩
    have hd := hdep r hr
    refine ⟨⟨r, hr, rfl⟩, ?_, ?_⟩
    · simp only [entryOf, entryKey, keyLtP, RangeKey.mk.injEq, eq_self_iff_true,
      true_and]
      omega
    · simp only [entryOf, entryKey, keyLtP, RangeKey.mk.injEq, eq_self_iff_true,
      true_and]
      omega

theorem entry_hit_iff (fid addr : Nat) (r : SymRange) (hwf : wfRange r) :
    ((entryOf fid r).1.va_start ≤ addr ∧
      addr < min ((entryOf fid r).1.va_start + (entryOf fid r).2.length)
        u64Max) ↔ Contains r addr := by
  obtain ⟨h1, h2, h3, h4⟩ := hwf
  simp only [entryOf, entryKey, RangeValue.from_range, Contains, u64Max]
  omega

/-- C1 amended: for a `FileSym` whose ranges have positive lengths,
pairwise-distinct `(va_start, depth)` keys and machine-width fields, and
which satisfies the covering invariant, `lookup` after
`store_file_symbols` on a fresh store returns exactly the ranges of the
file whose intervals contain the address, as frames resolved through the
stored string table, ordered by ascending depth. -/
theorem lookup_after_store_spec (fs : FileSym) (path : String) (addr : Nat)
    (haddr : addr < 2 ^ 64)
    (hwf : ∀ r ∈ fs.ranges, wfRange r)
    (hpos : ∀ r ∈ fs.ranges, 0 < r.length)
    (hkeys : List.Pairwise (fun r1 r2 : SymRange =>
      (r1.va_start, r1.depth) ≠ (r2.va_start, r2.depth)) fs.ranges)
    (hinv : covInv fs.ranges) :
    (SymbolStore.openEmpty.store_file_symbols fs path).lookup fs.file_id addr
      =
      ((fs.ranges.filter (fun r => decide (Contains r addr))).mergeSort
          depthLe).map
        (frameOfRange (SymbolStore.openEmpty.store_file_symbols fs path)
          fs.file_id) := by
  obtain ⟨hsorted, hmem⟩ := storeRanges_char fs.file_id fs.ranges []
    (by simp [SortedKeys]) (by simp) hkeys
  have hranges : (SymbolStore.openEmpty.store_file_symbols fs path).ranges =
      fs.ranges.foldl (fun acc r =>
        insertRange acc (RangeKey.mk fs.file_id r.va_start r.depth)
          (RangeValue.from_range r)) [] := rfl
  rw [← hranges] at hsorted
  simp only [← hranges, List.not_mem_nil, false_or] at hmem
  have hdep : ∀ r ∈ fs.ranges, r.depth < 2 ^ 16 := fun r hr => (hwf r hr).2.2.1
  have hLmem := scan_reverse_mem fs.file_id addr
    (SymbolStore.openEmpty.store_file_symbols fs path).ranges fs.ranges hmem
    hdep
  have hlookup : (SymbolStore.openEmpty.store_file_symbols fs path).lookup
      fs.file_id addr =
      sortFramesByDepth (lookupLoop
        (SymbolStore.openEmpty.store_file_symbols fs path) fs.file_id addr
        ((rangeScan (SymbolStore.openEmpty.store_file_symbols fs path).ranges
          ⟨fs.file_id, 0, 0⟩ ⟨fs.file_id, addr, 2 ^ 16 - 1⟩).reverse)) := rfl
  set st := SymbolStore.openEmpty.store_file_symbols fs path with hstdef
  set fid := fs.file_id with hfiddef
  set L := (rangeScan st.ranges ⟨fid, 0, 0⟩
    ⟨fid, addr, 2 ^ 16 - 1⟩).reverse with hLdef
  have hLsort : L.Pairwise (fun e1 e2 => keyLtP e2.1 e1.1) := by
    rw [hLdef]
    unfold rangeScan
    rw [List.pairwise_reverse]
    exact List.Pairwise.filter _ hsorted
  by_cases hcov : ∃ r ∈ fs.ranges, Contains r addr
  · obtain ⟨rw0, hrw0, hcw0⟩ := hcov
    obtain ⟨r0, hr0, hd0, hc0, huniq, hsame⟩ := hinv addr ⟨rw0, hrw0, hcw0⟩
    have hF2 : ∀ rp ∈ fs.ranges, rp.depth = 0 → rp.va_start ≤ addr →
        r0.va_start < rp.va_start → False := by
      intro rp hrp hd hva hlt
      have hposp := hpos rp hrp
      have hcontp : Contains rp rp.va_start := ⟨le_refl _, by omega⟩
      have hcont0 : Contains r0 rp.va_start := by
        obtain ⟨hc01, hc02⟩ := hc0
        exact ⟨by omega, by omega⟩
      obtain ⟨u, _, _, _, huuniq, _⟩ := hinv rp.va_start ⟨rp, hrp, hcontp⟩
      have h1 := huuniq rp hrp hd hcontp
      have h2 := huuniq r0 hr0 hd0 hcont0
      have h3 : rp = r0 := by rw [h1, h2]
      rw [h3] at hlt
      omega
    have he0L : entryOf fid r0 ∈ L := (hLmem _).mpr ⟨r0, hr0, rfl, hc0.1⟩
    obtain ⟨P, Q, hPQ⟩ := List.append_of_mem he0L
    rw [hPQ] at hLsort
    obtain ⟨hPsort, hEQsort, hcross⟩ := List.pairwise_append.mp hLsort
    have hPgt : ∀ p ∈ P, keyLtP (entryOf fid r0).1 p.1 :=
      fun p hp => hcross p hp _ (List.mem_cons_self _ _)
    have hQlt : ∀ q ∈ Q, keyLtP q.1 (entryOf fid r0).1 :=
      fun q hq => (List.pairwise_cons.mp hEQsort).1 q hq
    have hPL : ∀ p ∈ P, p ∈ L := by
      intro p hp
      rw [hPQ]
      exact List.mem_append_left _ hp
    have hPdepth : ∀ p ∈ P, p.1.depth ≠ 0 := by
      intro p hp hdz
      obtain ⟨rp, hrp, rfl, hva⟩ := (hLmem p).mp (hPL p hp)
      have hgt := hPgt _ hp
      simp only [entryOf, entryKey] at hgt hdz
      simp only [keyLtP, RangeKey.mk.injEq] at hgt
      rcases hgt with hf | ⟨_, hv | ⟨hveq, hdlt⟩⟩
      · omega
      · exact hF2 rp hrp hdz hva hv
      · omega
    have hhit0 : (entryOf fid r0).1.va_start ≤ addr ∧
        addr < min ((entryOf fid r0).1.va_start + (entryOf fid r0).2.length)
          u64Max :=
      (entry_hit_iff fid addr r0 (hwf r0 hr0)).mpr hc0
    have hloop : lookupLoop st fid addr L =
        (P.filter (fun e => decide (e.1.va_start ≤ addr ∧
            addr < min (e.1.va_start + e.2.length) u64Max))).map
          (fun e => ResolvedFrame.mk (st.resolve_string fid e.2.func_ref)
            e.1.depth) ++
          [ResolvedFrame.mk (st.resolve_string fid
              (entryOf fid r0).2.func_ref) (entryOf fid r0).1.depth] := by
      rw [hPQ, lookupLoop_split st fid addr P Q _ hPdepth hd0,
        if_pos hhit0]
    have hmemiff : ∀ x, x ∈ lookupLoop st fid addr L ↔
        x ∈ (fs.ranges.filter (fun r => decide (Contains r addr))).map
          (frameOfRange st fid) := by
      intro x
      rw [hloop, List.mem_append]
      constructor
      · rintro (hx | hx)
        · rw [List.mem_map] at hx
          obtain ⟨p, hpf, rfl⟩ := hx
          rw [List.mem_filter] at hpf
          obtain ⟨hp, hhitp⟩ := hpf
          obtain ⟨rp, hrp, rfl, hva⟩ := (hLmem p).mp (hPL p hp)
          have hcp : Contains rp addr :=
            (entry_hit_iff fid addr rp (hwf rp hrp)).mp
              (of_decide_eq_true hhitp)
          rw [List.mem_map]
          exact ⟨rp, List.mem_filter.mpr ⟨hrp, decide_eq_true hcp⟩, rfl⟩
        · rw [List.mem_singleton] at hx
          subst hx
          rw [List.mem_map]
          exact ⟨r0, List.mem_filter.mpr ⟨hr0, decide_eq_true hc0⟩, rfl⟩
      · intro hx
        rw [List.mem_map] at hx
        obtain ⟨r, hrS, rfl⟩ := hx
        rw [List.mem_filter] at hrS
        obtain ⟨hr, hcB⟩ := hrS
        have hcr : Contains r addr := of_decide_eq_true hcB
        by_cases hreq : r = r0
        · subst hreq
          right
          rw [List.mem_singleton]
          rfl
        · left
          rw [List.mem_map]
          refine ⟨entryOf fid r, ?_, rfl⟩
          rw [List.mem_filter]
          have hrd : r.depth ≠ 0 := fun hdz => hreq (huniq r hr hdz hcr)
          have hsva := hsame r hr hcr
          have hkeylt : keyLtP (entryOf fid r0).1 (entryOf fid r).1 := by
            simp only [entryOf, entryKey, keyLtP, RangeKey.mk.injEq, eq_self_iff_true,
      true_and]
            omega
          have hinL : entryOf fid r ∈ L := (hLmem _).mpr ⟨r, hr, rfl, by
            have h1 := hc0.1
            have h2 := hsva.1
            omega⟩
          have hinP : entryOf fid r ∈ P := by
            rw [hPQ] at hinL
            rcases List.mem_append.mp hinL with h | h
            · exact h
            · rcases List.mem_cons.mp h with heq | hq
              · exfalso
                rw [heq] at hkeylt
                exact keyLtP_irrefl _ hkeylt
              · exfalso
                exact keyLtP_asymm hkeylt (hQlt _ hq)
          exact ⟨hinP,
            decide_eq_true ((entry_hit_iff fid addr r (hwf r hr)).mpr hcr)⟩
    have hSdep : (fs.ranges.filter
        (fun r => decide (Contains r addr))).Pairwise
        (fun r1 r2 => r1.depth ≠ r2.depth) := by
      have hpf := List.Pairwise.filter
        (fun r => decide (Contains r addr)) hkeys
      refine List.Pairwise.imp_of_mem ?_ hpf
      intro a b ha hb hne hdeq
      rw [List.mem_filter] at ha hb
      have hva1 := (hsame a ha.1 (of_decide_eq_true ha.2)).1
      have hva2 := (hsame b hb.1 (of_decide_eq_true hb.2)).1
      exact hne (Prod.ext (by rw [hva1, hva2]) hdeq)
    have hFSdep : ((fs.ranges.filter
        (fun r => decide (Contains r addr))).map
          (frameOfRange st fid)).Pairwise
        (fun f1 f2 => f1.depth ≠ f2.depth) :=
      List.Pairwise.map _ (fun a b h => h) hSdep
    have hFSnodup : ((fs.ranges.filter
        (fun r => decide (Contains r addr))).map
          (frameOfRange st fid)).Nodup :=
      hFSdep.imp (fun h heq => h (congrArg ResolvedFrame.depth heq))
    have hPHva : ∀ p ∈ P.filter (fun e => decide (e.1.va_start ≤ addr ∧
        addr < min (e.1.va_start + e.2.length) u64Max)),
        p.1.va_start = r0.va_start ∧ p.1.file_id = fid := by
      intro p hpf
      rw [List.mem_filter] at hpf
      obtain ⟨hp, hhitp⟩ := hpf
      obtain ⟨rp, hrp, rfl, hva⟩ := (hLmem p).mp (hPL p hp)
      have hcp : Contains rp addr :=
        (entry_hit_iff fid addr rp (hwf rp hrp)).mp (of_decide_eq_true hhitp)
      exact ⟨(hsame rp hrp hcp).1, rfl⟩
    have hPHdep : (P.filter (fun e => decide (e.1.va_start ≤ addr ∧
        addr < min (e.1.va_start + e.2.length) u64Max))).Pairwise
        (fun e1 e2 => e1.1.depth ≠ e2.1.depth) := by
      have hps := List.Pairwise.filter (fun e => decide (e.1.va_start ≤ addr ∧
        addr < min (e.1.va_start + e.2.length) u64Max)) hPsort
      refine List.Pairwise.imp_of_mem ?_ hps
      intro a b ha hb hlt
      obtain ⟨hva1, hf1⟩ := hPHva a ha
      obtain ⟨hva2, hf2⟩ := hPHva b hb
      simp only [keyLtP] at hlt
      omega
    have hloopdep : (lookupLoop st fid addr L).Pairwise
        (fun f1 f2 => f1.depth ≠ f2.depth) := by
      rw [hloop]
      rw [List.pairwise_append]
      refine ⟨List.Pairwise.map _ (fun a b h => h) hPHdep, by simp, ?_⟩
      intro a ha b hb
      rw [List.mem_map] at ha
      obtain ⟨p, hpf, rfl⟩ := ha
      rw [List.mem_singleton] at hb
      subst hb
      have hd := hPdepth p (List.mem_of_mem_filter hpf)
      simp only [entryOf, entryKey]
      exact fun heq => hd (heq.trans hd0)
    have hloopnodup : (lookupLoop st fid addr L).Nodup :=
      hloopdep.imp (fun h heq => h (congrArg ResolvedFrame.depth heq))
    have hperm : (lookupLoop st fid addr L).Perm
        ((fs.ranges.filter (fun r => decide (Contains r addr))).map
          (frameOfRange st fid)) :=
      (List.perm_ext_iff_of_nodup hloopnodup hFSnodup).mpr hmemiff
    have htransF : ∀ a b c : ResolvedFrame,
        decide (a.depth ≤ b.depth) = true →
        decide (b.depth ≤ c.depth) = true →
        decide (a.depth ≤ c.depth) = true := by
      intro a b c h1 h2
      simp only [decide_eq_true_eq] at *
      omega
    have htotalF : ∀ a b : ResolvedFrame, (decide (a.depth ≤ b.depth) ||
        decide (b.depth ≤ a.depth)) = true := by
      intro a b
      simp only [Bool.or_eq_true, decide_eq_true_eq]
      omega
    have htransS : ∀ a b c : SymRange, depthLe a b = true →
        depthLe b c = true → depthLe a c = true := by
      intro a b c h1 h2
      simp only [depthLe, decide_eq_true_eq] at *
      omega
    have htotalS : ∀ a b : SymRange,
        (depthLe a b || depthLe b a) = true := by
      intro a b
      simp only [depthLe, Bool.or_eq_true, decide_eq_true_eq]
      omega
    have permLHS : (sortFramesByDepth (lookupLoop st fid addr L)).Perm
        ((fs.ranges.filter (fun r => decide (Contains r addr))).map
          (frameOfRange st fid)) :=
      (List.mergeSort_perm _ _).trans hperm
    have permRHS : (((fs.ranges.filter
        (fun r => decide (Contains r addr))).mergeSort depthLe).map
          (frameOfRange st fid)).Perm
        ((fs.ranges.filter (fun r => decide (Contains r addr))).map
          (frameOfRange st fid)) :=
      List.Perm.map _ (List.mergeSort_perm _ _)
    have permAll : (sortFramesByDepth (lookupLoop st fid addr L)).Perm
        (((fs.ranges.filter
          (fun r => decide (Contains r addr))).mergeSort depthLe).map
            (frameOfRange st fid)) :=
      permLHS.trans permRHS.symm
    have hsymm : ∀ {x y : ResolvedFrame},
        x.depth ≠ y.depth → y.depth ≠ x.depth := fun h => fun heq =>
      h heq.symm
    have hsortL : (sortFramesByDepth (lookupLoop st fid addr L)).Pairwise
        (fun f1 f2 => f1.depth ≤ f2.depth) := by
      have hs := List.sorted_mergeSort htransF htotalF
        (lookupLoop st fid addr L)
      exact hs.imp (fun h => of_decide_eq_true h)
    have hsortR : ((((fs.ranges.filter
        (fun r => decide (Contains r addr))).mergeSort depthLe)).map
          (frameOfRange st fid)).Pairwise
        (fun f1 f2 => f1.depth ≤ f2.depth) := by
      have hs := List.sorted_mergeSort htransS htotalS
        (fs.ranges.filter (fun r => decide (Contains r addr)))
      refine List.Pairwise.map _ ?_ hs
      intro a b h
      simpa [depthLe] using h
    have hdepL : (sortFramesByDepth (lookupLoop st fid addr L)).Pairwise
        (fun f1 f2 => f1.depth ≠ f2.depth) :=
      (List.Perm.pairwise_iff hsymm permLHS).mpr hFSdep
    have hdepR : ((((fs.ranges.filter
        (fun r => decide (Contains r addr))).mergeSort depthLe)).map
          (frameOfRange st fid)).Pairwise
        (fun f1 f2 => f1.depth ≠ f2.depth) :=
      (List.Perm.pairwise_iff hsymm permRHS).mpr hFSdep
    have hltL : (sortFramesByDepth (lookupLoop st fid addr L)).Pairwise
        (fun f1 f2 => f1.depth < f2.depth) :=
      (hsortL.and hdepL).imp (fun h => Nat.lt_of_le_of_ne h.1 h.2)
    have hltR : ((((fs.ranges.filter
        (fun r => decide (Contains r addr))).mergeSort depthLe)).map
          (frameOfRange st fid)).Pairwise
        (fun f1 f2 => f1.depth < f2.depth) :=
      (hsortR.and hdepR).imp (fun h => Nat.lt_of_le_of_ne h.1 h.2)
    haveI : IsAntisymm ResolvedFrame (fun f1 f2 => f1.depth < f2.depth) :=
      ⟨fun a b h1 h2 => absurd h1 (Nat.lt_asymm h2)⟩
    rw [hlookup]
    exact List.eq_of_perm_of_sorted permAll hltL hltR
  · have hnohit : ∀ e ∈ L, ¬ (e.1.va_start ≤ addr ∧
        addr < min (e.1.va_start + e.2.length) u64Max) := by
      intro e he hh
      obtain ⟨r, hr, rfl, hva⟩ := (hLmem e).mp he
      exact hcov ⟨r, hr, (entry_hit_iff fid addr r (hwf r hr)).mp hh⟩
    have hfilter : fs.ranges.filter (fun r => decide (Contains r addr)) =
        [] := by
      rw [List.filter_eq_nil_iff]
      intro r hr
      simp only [decide_eq_true_eq]
      exact fun hc => hcov ⟨r, hr, hc⟩
    rw [hlookup, lookupLoop_no_hit st fid addr L hnohit, hfilter]
    simp [sortFramesByDepth]

/-- First range of the C1 counterexample: a depth-0 range covering
`[0x1000, 0x1100)`. -/
def cexRange1 : SymRange :=
  { va_start := 0x1000, length := 0x100, func := 0, file := none
    call_file := none, call_line := none, depth := 0 }

/-- Second range of the C1 counterexample: a zero-length depth-0 range
at 0x1040, inside the first range's interval. -/
def cexRange2 : SymRange :=
  { va_start := 0x1040, length := 0, func := 1, file := none
    call_file := none, call_line := none, depth := 0 }

/-- File symbols of the C1 counterexample. -/
def cexFileSym : FileSym :=
  { file_id := 9, ranges := [cexRange1, cexRange2], strings := ["f", "g"] }

/-- The counterexample file satisfies the spec's covering invariant: the
zero-length range contains no address at all. -/
theorem covInv_cexFileSym : covInv cexFileSym.ranges := by
  intro a ha
  obtain ⟨r, hr, hc⟩ := ha
  simp only [cexFileSym, List.mem_cons, List.not_mem_nil, or_false] at hr
  have hbound : 0x1000 ≤ a ∧ a < 0x1100 := by
    rcases hr with rfl | rfl
    · simpa [cexRange1, Contains] using hc
    · exfalso
      obtain ⟨h1, h2⟩ := hc
      simp only [cexRange2] at h1 h2
      omega
  refine ⟨cexRange1, by simp [cexFileSym], rfl, ?_, ?_, ?_⟩
  · exact ⟨hbound.1, by simpa [cexRange1] using hbound.2⟩
  · intro rp hrp _ hcp
    simp only [cexFileSym, List.mem_cons, List.not_mem_nil, or_false] at hrp
    rcases hrp with rfl | rfl
    · rfl
    · exfalso
      obtain ⟨h1, h2⟩ := hcp
      simp only [cexRange2] at h1 h2
      omega
  · intro rp hrp hcp
    simp only [cexFileSym, List.mem_cons, List.not_mem_nil, or_false] at hrp
    rcases hrp with rfl | rfl
    · exact ⟨rfl, rfl⟩
    · exfalso
      obtain ⟨h1, h2⟩ := hcp
      simp only [cexRange2] at h1 h2
      omega

/-- C1 counterexample: the counterexample file satisfies the claimed
invariant and address 0x1080 lies in `cexRange1`, yet the reverse scan
stops at the zero-length depth-0 key at 0x1040 and `lookup` returns no
frame at all, while the claim demands the frame of `cexRange1`. -/
theorem lookup_zero_length_counterexample :
    covInv cexFileSym.ranges ∧
    cexFileSym.ranges.filter (fun r => decide (Contains r 0x1080)) =
      [cexRange1] ∧
    (SymbolStore.openEmpty.store_file_symbols cexFileSym "app").lookup
      cexFileSym.file_id 0x1080 = [] ∧
    [cexRange1].map (frameOfRange
      (SymbolStore.openEmpty.store_file_symbols cexFileSym "app")
      cexFileSym.file_id) = [⟨"f", 0⟩] ∧
    ([] : List ResolvedFrame) ≠ [⟨"f", 0⟩] := by
  refine ⟨covInv_cexFileSym, by decide, ?_, by decide, by decide⟩
  have h : lookupLoop
      (SymbolStore.openEmpty.store_file_symbols cexFileSym "app")
      cexFileSym.file_id 0x1080
      ((rangeScan
        (SymbolStore.openEmpty.store_file_symbols cexFileSym "app").ranges
        ⟨cexFileSym.file_id, 0, 0⟩
        ⟨cexFileSym.file_id, 0x1080, 2 ^ 16 - 1⟩).reverse) = [] := by decide
  show sortFramesByDepth (lookupLoop _ cexFileSym.file_id 0x1080 _) = []
  rw [h]
  simp [sortFramesByDepth]

/-- The inline-chain example file satisfies the covering invariant. -/
theorem covInv_exFileSym : covInv exFileSym.ranges := by
  intro a ha
  obtain ⟨r, hr, hc⟩ := ha
  simp only [exFileSym, List.mem_cons, List.not_mem_nil, or_false] at hr
  have hbound : 0x2000 ≤ a ∧ a < 0x2100 := by
    rcases hr with rfl | rfl
    · simpa [exRange0, Contains] using hc
    · simpa [exRange1, Contains] using hc
  refine ⟨exRange0, by simp [exFileSym], rfl, ?_, ?_, ?_⟩
  · exact ⟨hbound.1, by simpa [exRange0] using hbound.2⟩
  · intro rp hrp hd _
    simp only [exFileSym, List.mem_cons, List.not_mem_nil, or_false] at hrp
    rcases hrp with rfl | rfl
    · rfl
    · exact absurd hd (by simp [exRange1])
  · intro rp hrp _
    simp only [exFileSym, List.mem_cons, List.not_mem_nil, or_false] at hrp
    rcases hrp with rfl | rfl
    · exact ⟨rfl, rfl⟩
    · exact ⟨rfl, rfl⟩

/-- Witness for the amended C1 at the inline-chain example file and
address 0x2080. -/
theorem lookup_after_store_spec_witness :
    (SymbolStore.openEmpty.store_file_symbols exFileSym "/usr/bin/app").lookup
      exFileSym.file_id 0x2080 =
      ((exFileSym.ranges.filter
          (fun r => decide (Contains r 0x2080))).mergeSort depthLe).map
        (frameOfRange
          (SymbolStore.openEmpty.store_file_symbols exFileSym "/usr/bin/app")
          exFileSym.file_id) :=
  lookup_after_store_spec exFileSym "/usr/bin/app" 0x2080 (by decide)
    (by decide) (by decide) (by decide) covInv_exFileSym

end EProfiler
